import Mathlib

/-!
Verification of the numeric humanization functions of src/humanize/number.py
(ordinal, intcomma, intword, apnumber, fractional, scientific) against their
specification.

Modelling conventions, used consistently below:

* Python values reaching these functions are modelled by the type PyVal:
  an integer, a float, a string, or a non-numeric object (represented by
  PyVal.none, as in Python's None).
* Python floats are idealized as exact rational numbers (Rat).  All float
  arithmetic performed by number.py (division by a power of ten, subtraction
  of the truncated whole part, comparison of a formatted value with 1000.0)
  is exact on the inputs the claims are about, so the idealization is
  faithful there; IEEE-754 rounding of the inputs themselves is not modelled,
  and neither are the non-finite floats inf and nan.
* Rational arithmetic is written with Rat.divInt / mkRat and explicit
  numerator/denominator manipulation rather than with the arithmetic
  instances of Rat, because the latter are irreducible and would block kernel evaluation
  of concrete test values.  Bridge lemmas below relate both presentations.
* Python's % on integers returns a remainder with the sign of the divisor;
  every divisor used by number.py is positive, where Lean's Int.emod (the %
  instance) and Int division agree with Python exactly.
* Exceptions are modelled by Option: a coercion that raises ValueError or
  TypeError in Python yields Option.none here, and the callers branch on it
  exactly where number.py has its try/except blocks.  All model functions
  are total.
-/

set_option maxRecDepth 40000

namespace Humanize

/-- Decimal digit character for a value below ten (48 is the code of the zero digit). -/
def digitChar (n : Nat) : Char := Char.ofNat (48 + n)

/-- Decimal digits of a natural number, most significant first, as produced by
Python str() on a non-negative integer: no leading zero for a positive number,
and the single digit 0 for zero.  The fuel argument bounds the recursion depth
so that the definition is structural; natDigits supplies fuel equal to the
number itself, which always suffices. -/
def natDigitsAux (fuel : Nat) (n : Nat) : List Char :=
  match fuel with
  | 0 => []
  | fuel + 1 =>
    if n < 10 then [digitChar n]
    else natDigitsAux fuel (n / 10) ++ [digitChar (n % 10)]

/-- Decimal digits of a natural number, most significant first. -/
def natDigits (n : Nat) : List Char := natDigitsAux (n + 1) n

/-- Python str() of an int: an optional minus sign followed by the decimal digits. -/
def intToString (n : Int) : String :=
  String.mk (if n < 0 then '-' :: natDigits n.natAbs else natDigits n.natAbs)

/-- Numeric value of a run of decimal digit characters, most significant first. -/
def digitsToNat (l : List Char) : Nat :=
  l.foldl (fun a c => 10 * a + (c.toNat - 48)) 0

/-- Splits an optional leading sign from a numeral string; returns whether the
sign was a minus, and the remaining characters.  Python's int() and float()
accept one leading + or - sign. -/
def splitSign : List Char → Bool × List Char
  | c :: r => if c = '-' then (true, r) else if c = '+' then (false, r) else (false, c :: r)
  | [] => (false, [])

/-- Model of Python float() applied to a string: an optional sign, then digits
with an optional fractional part (at least one digit overall), then an optional
exponent part.  The exact rational value is returned.  Idealization: leading or
trailing whitespace, digit-group underscores and the special values inf and nan
are not modelled. -/
def parseFloatChars (l : List Char) : Option Rat :=
  let s := splitSign l
  let ip := s.2.takeWhile Char.isDigit
  let r1 := s.2.dropWhile Char.isDigit
  let fpr : List Char × List Char :=
    match r1 with
    | c :: r => if c = '.' then (r.takeWhile Char.isDigit, r.dropWhile Char.isDigit) else ([], r1)
    | [] => ([], r1)
  let fp := fpr.1
  let r2 := fpr.2
  if ip = [] ∧ fp = [] then Option.none
  else
    let mant : Int := (digitsToNat ip * 10 ^ fp.length + digitsToNat fp : Nat)
    let mantS : Int := if s.1 then -mant else mant
    match r2 with
    | [] => some (Rat.divInt mantS (10 ^ fp.length))
    | c :: r3 =>
      if c = 'e' ∨ c = 'E' then
        let es := splitSign r3
        let ed := es.2.takeWhile Char.isDigit
        let r4 := es.2.dropWhile Char.isDigit
        if ed = [] ∨ r4 ≠ [] then Option.none
        else if es.1 then some (Rat.divInt mantS (10 ^ fp.length * 10 ^ digitsToNat ed))
        else some (Rat.divInt (mantS * 10 ^ digitsToNat ed) (10 ^ fp.length))
      else Option.none

/-- Model of Python int() applied to a string: an optional sign, then one or
more digits and nothing else (whitespace and underscores are not modelled). -/
def parseIntChars (l : List Char) : Option Int :=
  let s := splitSign l
  if s.2 ≠ [] ∧ s.2.all Char.isDigit then
    some (if s.1 then -(digitsToNat s.2 : Int) else (digitsToNat s.2 : Int))
  else Option.none

/-- Fractional decimal digits of num/den (with num < den) by long division,
stopping when the remainder vanishes; the fuel caps the number of digits, as
Python float repr shows at most 17 significant digits.  Always emits at least
one digit, as Python does for floats ("1.0"). -/
def fracDigits (fuel : Nat) (num den : Nat) : List Char :=
  match fuel with
  | 0 => []
  | fuel + 1 =>
    let d := (num * 10) / den
    let r := (num * 10) % den
    if r = 0 then [digitChar d]
    else digitChar d :: fracDigits fuel r den

/-- Whether 10^e ≤ x, decided on the numerator scale (for positive x). -/
def powLE (e : Int) (x : Rat) : Bool :=
  if 0 ≤ e then (10 : Int) ^ e.toNat * (x.den : Int) ≤ x.num
  else (x.den : Int) ≤ x.num * 10 ^ (-e).toNat

/-- The decimal exponent of a positive rational: the unique e with
10^e ≤ x < 10^(e+1), located from the digit counts of numerator and
denominator and one comparison. -/
def ratExp10 (x : Rat) : Int :=
  let e0 : Int := (natDigits x.num.toNat).length - (natDigits x.den).length
  if powLE e0 x then e0 else e0 - 1

/-- x * 10^k for an integer k, computed on numerator and denominator. -/
def ratScale (x : Rat) (k : Int) : Rat :=
  if 0 ≤ k then Rat.divInt (x.num * 10 ^ k.toNat) (x.den : Int)
  else Rat.divInt x.num ((x.den : Int) * 10 ^ (-k).toNat)

/-- The exponent part of a Python-formatted float: an explicit sign and at
least two digits ("+02", "-01", "+10"), as both str() on an
exponent-notation float and "{:.pe}" formatting print it. -/
def expChars (e : Int) : List Char :=
  let sign : Char := if e < 0 then '-' else '+'
  let ds := natDigits (if e < 0 then (-e).toNat else e.toNat)
  sign :: (if ds.length < 2 then List.replicate (2 - ds.length) '0' ++ ds else ds)

/-- Trailing zero digits removed (Python prints no trailing zeros in the
significant digits of an exponent-notation float). -/
def trimZeros (l : List Char) : List Char :=
  (l.reverse.dropWhile (fun c => c = '0')).reverse

/-- Python str() of a float, idealized over exact rationals.  In the plain
range (zero, or magnitude at least 1e-4 and below 1e16) it prints the sign,
the integer part, a decimal point and the fractional digits; outside that
range Python switches to exponent notation d[.ddd]e±NN, modelled as the
leading significant digit, the further significant digits of a 17-digit
truncation with trailing zeros trimmed (preceded by a decimal point only
when any remain), and the signed two-digit-minimum exponent.  Idealization:
the digit text is the value's leading decimal digits, capped at 17, where
Python prints the shortest digits that round-trip the binary double -- the
two agree on the short decimals the claims handle; the form (which range
uses exponent notation, the placement of the number's and the exponent's
signs, the glyph inventory) follows str() exactly. -/
def ratRepr (q : Rat) : String :=
  let n := q.num.natAbs
  let d := q.den
  let sgn : List Char := if q.num < 0 then ['-'] else []
  let aq : Rat := Rat.divInt (n : Int) (d : Int)
  if q.num ≠ 0 ∧ (aq < Rat.divInt 1 (10 ^ 4) ∨ Rat.divInt (10 ^ 16) 1 ≤ aq) then
    let e := ratExp10 aq
    let m := (ratScale aq ((16 : Int) - e)).floor.toNat
    String.mk (sgn ++ (match trimZeros (natDigits m) with
      | [] => ['0']
      | c :: rest => c :: (if rest = [] then [] else '.' :: rest)) ++ 'e' :: expChars e)
  else
    String.mk (sgn ++ natDigits (n / d) ++ '.' :: fracDigits 17 (n % d) d)

/-- A Python value as it may reach the functions of number.py: an int, a
float (idealized as an exact rational), a string, or a non-numeric object
(PyVal.none, standing for a value such as None that every numeric coercion
rejects). -/
inductive PyVal where
  | int (n : Int)
  | float (q : Rat)
  | str (s : String)
  | none
deriving DecidableEq

/-- Python str() on a PyVal. -/
def pyStr : PyVal → String
  | .int n => intToString n
  | .float q => ratRepr q
  | .str s => s
  | .none => "None"

/-- Truncation of a rational toward zero, as Python int() does on a float. -/
def ratTrunc (q : Rat) : Int := if 0 ≤ q.num then q.floor else -(-q).floor

/-- Model of Python int(value): ints pass through, floats truncate toward
zero, strings are parsed as integer numerals; any other object raises
TypeError, modelled as Option.none. -/
def pyInt : PyVal → Option Int
  | .int n => some n
  | .float q => some (ratTrunc q)
  | .str s => parseIntChars s.data
  | .none => Option.none

/-- Model of Python float(value). -/
def pyFloat : PyVal → Option Rat
  | .int n => some (Rat.divInt n 1)
  | .float q => some q
  | .str s => parseFloatChars s.data
  | .none => Option.none

/-- Modelled from the spec: the Translator collaborator (gettext, imported as
_ from the i18n module, which is not part of the sources under review).  The
spec describes it as a lookup/passthrough; the default null translator returns
the message id unchanged. -/
def gettext (msgid : String) : String := msgid

/-- Modelled from the spec: the Translator's context lookup (pgettext,
imported as P_), which disambiguates by a context tag; the default null
translator returns the message id unchanged. -/
def pgettext (_ctxt msgid : String) : String := msgid

/-- Modelled from the spec: gettext_noop (imported as N_) marks a string for
extraction and returns it unchanged. -/
def gettext_noop (msgid : String) : String := msgid

/-- ordinal from number.py: coerce to int (returning the input unchanged on
failure), then append the suffix chosen by value % 10, except that 11, 12 and
13 mod 100 always take "th". -/
def ordinal (value : PyVal) : PyVal :=
  match pyInt value with
  | Option.none => value
  | some v =>
    let t := [pgettext "0" "th", pgettext "1" "st", pgettext "2" "nd", pgettext "3" "rd",
              pgettext "4" "th", pgettext "5" "th", pgettext "6" "th", pgettext "7" "th",
              pgettext "8" "th", pgettext "9" "th"]
    if v % 100 = 11 ∨ v % 100 = 12 ∨ v % 100 = 13 then
      .str (intToString v ++ t.getD 0 "")
    else
      .str (intToString v ++ t.getD (v % 10).toNat "")

/-- apnumber from number.py: the spelled word for 1 through 9, the decimal
string otherwise. -/
def apnumber (value : PyVal) : PyVal :=
  match pyInt value with
  | Option.none => value
  | some v =>
    if ¬ (0 < v ∧ v < 10) then .str (intToString v)
    else
      .str ([gettext "one", gettext "two", gettext "three", gettext "four", gettext "five",
             gettext "six", gettext "seven", gettext "eight", gettext "nine"].getD
             (v - 1).toNat "")

/-- Comma characters removed, as value.replace(",", "") does in the
validation step of intcomma. -/
def stripCommas (l : List Char) : List Char := l.filter (fun c => !(c == ','))

/-- One application of the substitution of the regular expression
matching a leading optional minus, a digit run and a final group of three
digits: when the leading digit run has at least four digits, a comma is
inserted before its last three digits (the greedy first group keeps
everything but the final three).  This is the body of re.sub in intcomma,
restricted to the part after the optional sign. -/
def commaStepRun (r : List Char) : List Char :=
  let run := r.takeWhile Char.isDigit
  let rest := r.dropWhile Char.isDigit
  if 4 ≤ run.length then
    run.take (run.length - 3) ++ ',' :: run.drop (run.length - 3) ++ rest
  else r

/-- One application of the anchored regex substitution of intcomma,
including the optional leading minus sign. -/
def commaStep (l : List Char) : List Char :=
  match l with
  | c :: r => if c = '-' then c :: commaStepRun r else commaStepRun l
  | [] => []

/-- The recursion of intcomma: reapply the substitution until a pass makes no
change.  The fuel bounds the recursion depth; intcomma passes the length of
the string, which always suffices because every changing pass shortens the
leading digit run by three. -/
def commaFix (fuel : Nat) (l : List Char) : List Char :=
  match fuel with
  | 0 => l
  | fuel + 1 =>
    let n := commaStep l
    if n = l then l else commaFix fuel n

/-- The validation at the top of intcomma: strings are accepted when they
parse as a float after commas are removed, ints and floats always coerce,
and any other object raises TypeError (modelled as failure). -/
def intcommaValid : PyVal → Bool
  | .str s => (parseFloatChars (stripCommas s.data)).isSome
  | .int _ => true
  | .float _ => true
  | .none => false

/-- intcomma from number.py: validate, then repeat the anchored regex
substitution on str(value) until it is a fixed point. -/
def intcomma (value : PyVal) : PyVal :=
  if intcommaValid value then
    let orig := (pyStr value).data
    .str (String.mk (commaFix orig.length orig))
  else value

/-- Thousands grouping as the specification words it, a comma inserted every
three digits from the right: the last three digits are split off and the
grouping continues on the remaining prefix.  The fuel bounds the recursion;
groupFromRight passes the length of the run, which always suffices. -/
def groupAux (fuel : Nat) (d : List Char) : List Char :=
  match fuel with
  | 0 => d
  | fuel + 1 =>
    if d.length ≤ 3 then d
    else groupAux fuel (d.take (d.length - 3)) ++ ',' :: d.drop (d.length - 3)

/-- A comma inserted every three digits from the right of a digit run. -/
def groupFromRight (d : List Char) : List Char := groupAux d.length d

/-- Decomposition of a numeral string as the intcomma regex sees it: an
optional minus sign, the maximal leading digit run, and the rest. -/
def decomposeNum (l : List Char) : List Char × List Char × List Char :=
  match l with
  | c :: r =>
    if c = '-' then ([c], r.takeWhile Char.isDigit, r.dropWhile Char.isDigit)
    else ([], l.takeWhile Char.isDigit, l.dropWhile Char.isDigit)
  | [] => ([], [], [])

/-- The ordinal suffix table exactly as the specification words it: 11, 12 and
13 mod 100 always take "th", otherwise the last digit selects from
0 to "th", 1 to "st", 2 to "nd", 3 to "rd" and 4 through 9 to "th". -/
def ordinalSuffixSpec (n : Int) : String :=
  if n % 100 = 11 ∨ n % 100 = 12 ∨ n % 100 = 13 then "th"
  else if n % 10 = 1 then "st"
  else if n % 10 = 2 then "nd"
  else if n % 10 = 3 then "rd"
  else "th"

/-- The nine Translator words apnumber can return. -/
def apWords : List String :=
  ["one", "two", "three", "four", "five", "six", "seven", "eight", "nine"]

/-- C4: for every integer n, ordinal(n) is the decimal string of n followed by
"th" whenever n % 100 is 11, 12 or 13 (with Python's modulo, whose result has
the sign of the divisor), and otherwise by the suffix the table
0:"th", 1:"st", 2:"nd", 3:"rd", 4-9:"th" assigns to n % 10. -/
theorem ordinal_suffix_table (n : Int) :
    ordinal (.int n) = .str (intToString n ++ ordinalSuffixSpec n) := by
  have h0 : 0 ≤ n % 10 := Int.emod_nonneg n (by norm_num)
  have h1 : n % 10 < 10 := Int.emod_lt_of_pos n (by norm_num)
  by_cases h : n % 100 = 11 ∨ n % 100 = 12 ∨ n % 100 = 13
  · simp [ordinal, pyInt, ordinalSuffixSpec, h, pgettext]
  · simp only [ordinal, pyInt, ordinalSuffixSpec, if_neg h, pgettext]
    set k := n % 10 with hk
    interval_cases k <;> simp [List.getD]

/-- C8: for every integer n, apnumber(n) is the spelled Translator word
exactly when 1 ≤ n ≤ 9, and the plain decimal string for every other
integer, zero and negatives included. -/
theorem apnumber_spelled_iff (n : Int) :
    apnumber (.int n) =
      .str (if 1 ≤ n ∧ n ≤ 9 then apWords.getD (n - 1).toNat "" else intToString n) := by
  by_cases h : 1 ≤ n ∧ n ≤ 9
  · have hc : 0 < n ∧ n < 10 := by omega
    simp [apnumber, pyInt, hc, h, gettext, apWords]
  · have hc : ¬ (0 < n ∧ n < 10) := by omega
    simp [apnumber, pyInt, hc, h, gettext]

/-- takeWhile runs past an all-true prefix. -/
theorem takeWhile_append_of_all {p : Char → Bool} {a : List Char} (b : List Char)
    (h : ∀ c ∈ a, p c = true) : (a ++ b).takeWhile p = a ++ b.takeWhile p := by
  induction a with
  | nil => simp
  | cons x t ih =>
    have hx : p x = true := h x (by simp)
    simp only [List.cons_append, List.takeWhile_cons_of_pos hx]
    rw [ih (fun c hc => h c (by simp [hc]))]

/-- dropWhile discards an all-true prefix. -/
theorem dropWhile_append_of_all {p : Char → Bool} {a : List Char} (b : List Char)
    (h : ∀ c ∈ a, p c = true) : (a ++ b).dropWhile p = b.dropWhile p := by
  induction a with
  | nil => simp
  | cons x t ih =>
    have hx : p x = true := h x (by simp)
    simp only [List.cons_append, List.dropWhile_cons_of_pos hx]
    exact ih (fun c hc => h c (by simp [hc]))

/-- takeWhile of a list whose head fails the predicate is empty. -/
theorem takeWhile_eq_nil_of_head {p : Char → Bool} : ∀ {l : List Char},
    (∀ c, l.head? = some c → p c = false) → l.takeWhile p = []
  | [], _ => rfl
  | _ :: _, h => List.takeWhile_cons_of_neg (by simp [h _ rfl])

/-- dropWhile of a list whose head fails the predicate is the list itself. -/
theorem dropWhile_eq_self_of_head {p : Char → Bool} : ∀ {l : List Char},
    (∀ c, l.head? = some c → p c = false) → l.dropWhile p = l
  | [], _ => rfl
  | _ :: _, h => List.dropWhile_cons_of_neg (by simp [h _ rfl])

/-- The characters produced by digitChar for values below ten are digits. -/
theorem digitChar_isDigit {n : Nat} (h : n < 10) : (digitChar n).isDigit = true := by
  interval_cases n <;> decide

/-- Every character produced by the digit expansion is a decimal digit. -/
theorem natDigitsAux_all_digit : ∀ (fuel n : Nat), ∀ c ∈ natDigitsAux fuel n, c.isDigit = true := by
  intro fuel
  induction fuel with
  | zero => intro n c hc; simp [natDigitsAux] at hc
  | succ fuel ih =>
    intro n c hc
    unfold natDigitsAux at hc
    by_cases h : n < 10
    · rw [if_pos h] at hc
      simp at hc
      subst hc
      exact digitChar_isDigit h
    · rw [if_neg h] at hc
      simp at hc
      rcases hc with hc | hc
      · exact ih _ c hc
      · subst hc
        exact digitChar_isDigit (Nat.mod_lt _ (by omega))

/-- Every character of natDigits is a decimal digit. -/
theorem natDigits_all_digit (n : Nat) : ∀ c ∈ natDigits n, c.isDigit = true :=
  natDigitsAux_all_digit (n + 1) n

/-- natDigits never returns the empty list. -/
theorem natDigits_ne_nil (n : Nat) : natDigits n ≠ [] := by
  unfold natDigits natDigitsAux
  by_cases h : n < 10 <;> simp [h]

/-- A digit character differs from any non-digit character. -/
theorem ne_of_isDigit {c x : Char} (h : c.isDigit = true) (hx : x.isDigit = false) : c ≠ x := by
  intro e
  subst e
  rw [h] at hx
  cases hx

/-- A leading digit run of at most three digits is untouched by one regex pass. -/
theorem commaStep_id {sgn run rest : List Char}
    (hs : sgn = [] ∨ sgn = ['-'])
    (hr : ∀ c ∈ run, c.isDigit = true)
    (hrest : ∀ c, rest.head? = some c → c.isDigit = false)
    (hneg : run = [] → sgn = ['-'] ∨ rest.head? ≠ some '-')
    (hlen : run.length ≤ 3) :
    commaStep (sgn ++ run ++ rest) = sgn ++ run ++ rest := by
  have hrunrest : commaStepRun (run ++ rest) = run ++ rest := by
    unfold commaStepRun
    rw [takeWhile_append_of_all rest hr, takeWhile_eq_nil_of_head hrest]
    simp only [List.append_nil]
    rw [if_neg (by omega)]
  rcases hs with hs | hs
  · subst hs
    simp only [List.nil_append] at hrunrest ⊢
    rcases run with _ | ⟨c, t⟩
    · simp only [List.nil_append] at hrunrest ⊢
      rcases rest with _ | ⟨c, t⟩
      · rfl
      · have hcd : c.isDigit = false := hrest c rfl
        have hcne : c ≠ '-' := by
          rcases hneg rfl with h | h
          · cases h
          · intro e
            subst e
            exact h rfl
        simpa [commaStep, hcne] using hrunrest
    · have hc : c.isDigit = true := hr c (by simp)
      have hcne : c ≠ '-' := ne_of_isDigit hc (by decide)
      simpa [commaStep, hcne] using hrunrest
  · subst hs
    simpa [commaStep] using hrunrest

/-- A leading digit run of at least four digits gets a comma inserted before
its last three digits by one regex pass. -/
theorem commaStep_insert {sgn run rest : List Char}
    (hs : sgn = [] ∨ sgn = ['-'])
    (hr : ∀ c ∈ run, c.isDigit = true)
    (hrest : ∀ c, rest.head? = some c → c.isDigit = false)
    (hlen : 4 ≤ run.length) :
    commaStep (sgn ++ run ++ rest) =
      sgn ++ run.take (run.length - 3) ++ ',' :: run.drop (run.length - 3) ++ rest := by
  have hrunrest : commaStepRun (run ++ rest) =
      run.take (run.length - 3) ++ ',' :: run.drop (run.length - 3) ++ rest := by
    unfold commaStepRun
    rw [takeWhile_append_of_all rest hr, takeWhile_eq_nil_of_head hrest,
        dropWhile_append_of_all rest hr, dropWhile_eq_self_of_head hrest]
    simp only [List.append_nil]
    rw [if_pos (by omega)]
  rcases hs with hs | hs
  · subst hs
    simp only [List.nil_append] at hrunrest ⊢
    rcases run with _ | ⟨c, t⟩
    · simp at hlen
    · have hc : c.isDigit = true := hr c (by simp)
      have hcne : c ≠ '-' := ne_of_isDigit hc (by decide)
      simpa [commaStep, hcne] using hrunrest
  · subst hs
    simpa [commaStep] using hrunrest

/-- The iterated regex pass groups the leading digit run in threes from the
right and changes nothing else, given enough fuel. -/
theorem commaFix_groups : ∀ (fuel : Nat) (sgn run rest : List Char),
    (sgn = [] ∨ sgn = ['-']) →
    (∀ c ∈ run, c.isDigit = true) →
    (∀ c, rest.head? = some c → c.isDigit = false) →
    (run = [] → sgn = ['-'] ∨ rest.head? ≠ some '-') →
    run.length ≤ 3 * fuel + 3 →
    commaFix fuel (sgn ++ run ++ rest) = sgn ++ groupAux fuel run ++ rest := by
  intro fuel
  induction fuel with
  | zero => intro sgn run rest _ _ _ _ _; rfl
  | succ fuel ih =>
    intro sgn run rest hs hr hrest hneg hlen
    by_cases h3 : run.length ≤ 3
    · have hid := commaStep_id hs hr hrest hneg h3
      unfold commaFix groupAux
      rw [if_pos hid, if_pos h3]
    · have h4 : 4 ≤ run.length := by omega
      have hins := commaStep_insert hs hr hrest h4
      have hne : commaStep (sgn ++ run ++ rest) ≠ sgn ++ run ++ rest := by
        intro e
        have hlene : (commaStep (sgn ++ run ++ rest)).length = (sgn ++ run ++ rest).length := by
          rw [e]
        rw [hins] at hlene
        simp only [List.length_append, List.length_cons, List.length_take,
          List.length_drop] at hlene
        omega
      unfold commaFix
      rw [if_neg hne, hins]
      have hlen2 : (run.take (run.length - 3)).length ≤ 3 * fuel + 3 := by
        rw [List.length_take]
        omega
      have hih := ih sgn (run.take (run.length - 3)) (',' :: run.drop (run.length - 3) ++ rest)
        hs
        (fun c hc => hr c (List.take_subset _ _ hc))
        (by intro c hc; simp at hc; subst hc; decide)
        (by
          intro he
          have h5 : (run.take (run.length - 3)).length = 0 := by rw [he]; rfl
          rw [List.length_take] at h5
          omega)
        hlen2
      unfold groupAux
      rw [if_neg h3]
      simp only [List.append_assoc, List.cons_append] at hih ⊢
      exact hih

/-- groupAux does not depend on the fuel, once the fuel is sufficient. -/
theorem groupAux_stable : ∀ (f1 f2 : Nat) (d : List Char),
    d.length ≤ 3 * f1 + 3 → d.length ≤ 3 * f2 + 3 → groupAux f1 d = groupAux f2 d := by
  intro f1
  induction f1 with
  | zero =>
    intro f2 d h1 h2
    have h3 : d.length ≤ 3 := by omega
    cases f2 with
    | zero => rfl
    | succ f2 => unfold groupAux; rw [if_pos h3]
  | succ f1 ih =>
    intro f2 d h1 h2
    by_cases h3 : d.length ≤ 3
    · cases f2 with
      | zero => unfold groupAux; rw [if_pos h3]
      | succ f2 => unfold groupAux; rw [if_pos h3, if_pos h3]
    · cases f2 with
      | zero => omega
      | succ f2 =>
        unfold groupAux
        rw [if_neg h3, if_neg h3]
        have := ih f2 (d.take (d.length - 3))
          (by simp only [List.length_take]; omega)
          (by simp only [List.length_take]; omega)
        rw [this]

/-- The grouped run starts with a block of at most three digits that is
followed by nothing or by a comma. -/
theorem groupAux_head_run : ∀ (fuel : Nat) (d : List Char),
    (∀ c ∈ d, c.isDigit = true) → d.length ≤ 3 * fuel + 3 →
    ∃ a b, groupAux fuel d = a ++ b ∧ (∀ c ∈ a, c.isDigit = true) ∧ a.length ≤ 3 ∧
      (b = [] ∨ b.head? = some ',') ∧ (a = [] → d = []) := by
  intro fuel
  induction fuel with
  | zero =>
    intro d hd hlen
    exact ⟨d, [], by simp [groupAux], hd, by omega, Or.inl rfl, fun h => h⟩
  | succ fuel ih =>
    intro d hd hlen
    by_cases h3 : d.length ≤ 3
    · exact ⟨d, [], by simp [groupAux, h3], hd, h3, Or.inl rfl, fun h => h⟩
    · obtain ⟨a, b, heq, ha, halen, hb, hanil⟩ := ih (d.take (d.length - 3))
        (fun c hc => hd c (List.take_subset _ _ hc))
        (by simp only [List.length_take]; omega)
      have htake : d.take (d.length - 3) ≠ [] := by
        intro he
        have h5 : (d.take (d.length - 3)).length = 0 := by rw [he]; rfl
        rw [List.length_take] at h5
        omega
      refine ⟨a, b ++ ',' :: d.drop (d.length - 3), ?_, ha, halen, ?_,
        fun h => absurd (hanil h) htake⟩
      · unfold groupAux
        rw [if_neg h3, heq]
        simp [List.append_assoc]
      · rcases hb with hb | hb
        · subst hb
          simp
        · right
          rcases b with _ | ⟨x, t⟩
          · cases hb
          · simp at hb
            subst hb
            rfl

/-- A fixed point of the regex pass is a fixed point of the whole recursion. -/
theorem commaFix_of_fixed {l : List Char} (h : commaStep l = l) :
    ∀ fuel, commaFix fuel l = l := by
  intro fuel
  cases fuel with
  | zero => rfl
  | succ fuel => unfold commaFix; rw [if_pos h]

/-- One regex pass only inserts a comma: removing commas undoes it. -/
theorem stripCommas_commaStepRun (r : List Char) :
    stripCommas (commaStepRun r) = stripCommas r := by
  unfold commaStepRun
  by_cases h : 4 ≤ (r.takeWhile Char.isDigit).length
  · rw [if_pos h]
    unfold stripCommas
    simp only [List.filter_append, List.filter_cons, List.append_assoc, beq_self_eq_true,
      Bool.not_true, Bool.false_eq_true, if_false]
    rw [← List.append_assoc, ← List.filter_append, List.take_append_drop, ← List.filter_append,
      List.takeWhile_append_dropWhile]
  · rw [if_neg h]

/-- One regex pass commutes with removing commas. -/
theorem stripCommas_commaStep (l : List Char) :
    stripCommas (commaStep l) = stripCommas l := by
  rcases l with _ | ⟨c, t⟩
  · rfl
  · simp only [commaStep]
    by_cases h : c = '-'
    · rw [if_pos h]
      subst h
      have ht := stripCommas_commaStepRun t
      unfold stripCommas at ht ⊢
      rw [List.filter_cons, List.filter_cons]
      have hd : (!('-' == ',')) = true := by decide
      rw [hd]
      simp only [if_true]
      rw [ht]
    · rw [if_neg h]
      exact stripCommas_commaStepRun (c :: t)

/-- The full intcomma recursion only inserts commas. -/
theorem stripCommas_commaFix : ∀ (fuel : Nat) (l : List Char),
    stripCommas (commaFix fuel l) = stripCommas l := by
  intro fuel
  induction fuel with
  | zero => intro l; rfl
  | succ fuel ih =>
    intro l
    unfold commaFix
    by_cases h : commaStep l = l
    · rw [if_pos h]
    · rw [if_neg h]
      rw [ih (commaStep l), stripCommas_commaStep]

/-- takeWhile keeps a list all of whose elements satisfy the predicate. -/
theorem takeWhile_eq_self_of_all {p : Char → Bool} {l : List Char}
    (h : ∀ c ∈ l, p c = true) : l.takeWhile p = l := by
  have h2 := takeWhile_append_of_all ([] : List Char) h
  simpa using h2

/-- dropWhile empties a list all of whose elements satisfy the predicate. -/
theorem dropWhile_eq_nil_of_all {p : Char → Bool} {l : List Char}
    (h : ∀ c ∈ l, p c = true) : l.dropWhile p = [] := by
  have h2 := dropWhile_append_of_all ([] : List Char) h
  simpa using h2

/-- splitSign takes a leading minus. -/
theorem splitSign_minus (r : List Char) : splitSign ('-' :: r) = (true, r) := by
  simp [splitSign]

/-- splitSign leaves a string starting with a digit alone. -/
theorem splitSign_digit {c : Char} (r : List Char) (h : c.isDigit = true) :
    splitSign (c :: r) = (false, c :: r) := by
  have h1 : c ≠ '-' := ne_of_isDigit h (by decide)
  have h2 : c ≠ '+' := ne_of_isDigit h (by decide)
  simp [splitSign, h1, h2]

/-- float() accepts a pure digit run after the sign. -/
theorem parseFloatChars_some_digits {ds : List Char} (hne : ds ≠ [])
    (hd : ∀ c ∈ ds, c.isDigit = true) (b : Bool) (l : List Char)
    (hsplit : splitSign l = (b, ds)) : (parseFloatChars l).isSome = true := by
  unfold parseFloatChars
  rw [hsplit]
  simp only []
  rw [takeWhile_eq_self_of_all hd, dropWhile_eq_nil_of_all hd]
  simp [hne]

/-- float() accepts digits, a point and digit characters after the sign. -/
theorem parseFloatChars_some_decimal {ds fs : List Char} (hne : ds ≠ [])
    (hd : ∀ c ∈ ds, c.isDigit = true) (hf : ∀ c ∈ fs, c.isDigit = true)
    (b : Bool) (l : List Char)
    (hsplit : splitSign l = (b, ds ++ '.' :: fs)) : (parseFloatChars l).isSome = true := by
  unfold parseFloatChars
  rw [hsplit]
  simp only []
  rw [takeWhile_append_of_all _ hd, dropWhile_append_of_all _ hd,
    List.takeWhile_cons_of_neg (by decide), List.dropWhile_cons_of_neg (by decide)]
  simp [hne, takeWhile_eq_self_of_all hf, dropWhile_eq_nil_of_all hf]

/-- Long division of num/den with num < den produces digit characters only. -/
theorem fracDigits_all_digit : ∀ (fuel num den : Nat), 0 < den → num < den →
    ∀ c ∈ fracDigits fuel num den, c.isDigit = true := by
  intro fuel
  induction fuel with
  | zero => intro num den _ _ c hc; simp [fracDigits] at hc
  | succ fuel ih =>
    intro num den hden hnum c hc
    have hdig : (num * 10) / den < 10 := by
      rw [Nat.div_lt_iff_lt_mul hden]
      omega
    unfold fracDigits at hc
    by_cases h : (num * 10) % den = 0
    · rw [if_pos h] at hc
      simp at hc
      subst hc
      exact digitChar_isDigit hdig
    · rw [if_neg h] at hc
      simp at hc
      rcases hc with hc | hc
      · subst hc
        exact digitChar_isDigit hdig
      · exact ih _ den hden (Nat.mod_lt _ hden) c hc

/-- Trimming trailing zeros keeps a sublist of the original characters. -/
theorem trimZeros_subset {l : List Char} : ∀ c ∈ trimZeros l, c ∈ l := by
  intro c hc
  unfold trimZeros at hc
  rw [List.mem_reverse] at hc
  have hsub := List.dropWhile_sublist (l := l.reverse) (fun c => c = '0')
  exact List.mem_reverse.mp (hsub.subset hc)

/-- The exponent part is a sign character followed by a non-empty digit
run. -/
theorem expChars_shape (e : Int) :
    ∃ sc es, expChars e = sc :: es ∧ (sc = '+' ∨ sc = '-') ∧ es ≠ [] ∧
      ∀ c ∈ es, c.isDigit = true := by
  unfold expChars
  dsimp only
  refine ⟨_, _, rfl, ?_, ?_, ?_⟩
  · by_cases he : e < 0
    · rw [if_pos he]
      right
      rfl
    · rw [if_neg he]
      left
      rfl
  · rcases hnd : natDigits (if e < 0 then (-e).toNat else e.toNat) with _ | ⟨c, t⟩
    · exact absurd hnd (natDigits_ne_nil _)
    · by_cases hl : (c :: t).length < 2
      · rw [if_pos hl]
        simp
      · rw [if_neg hl]
        simp
  · intro x hx
    rcases hnd : natDigits (if e < 0 then (-e).toNat else e.toNat) with _ | ⟨c, t⟩
    · exact absurd hnd (natDigits_ne_nil _)
    · have hall : ∀ y ∈ c :: t, y.isDigit = true := by
        rw [← hnd]
        exact natDigits_all_digit _
      rw [hnd] at hx
      by_cases hl : (c :: t).length < 2
      · rw [if_pos hl] at hx
        rcases List.mem_append.mp hx with hx | hx
        · rw [List.eq_of_mem_replicate hx]
          decide
        · exact hall x hx
      · rw [if_neg hl] at hx
        exact hall x hx

/-- float() accepts digits followed by an exponent part after the sign. -/
theorem parseFloatChars_some_expo {ds es : List Char} (hne : ds ≠ [])
    (hd : ∀ c ∈ ds, c.isDigit = true) {sc : Char} (hsc : sc = '+' ∨ sc = '-')
    (hese : es ≠ []) (he : ∀ c ∈ es, c.isDigit = true) (b : Bool) (l : List Char)
    (hsplit : splitSign l = (b, ds ++ 'e' :: sc :: es)) :
    (parseFloatChars l).isSome = true := by
  unfold parseFloatChars
  rw [hsplit]
  simp only []
  rw [takeWhile_append_of_all _ hd, dropWhile_append_of_all _ hd,
    List.takeWhile_cons_of_neg (by decide), List.dropWhile_cons_of_neg (by decide)]
  rcases hsc with h | h <;> subst h <;>
    simp [hne, splitSign, takeWhile_eq_self_of_all he, dropWhile_eq_nil_of_all he, hese]

/-- float() accepts digits, a point, digits and an exponent part after the
sign. -/
theorem parseFloatChars_some_expo_dot {ds fs es : List Char} (hne : ds ≠ [])
    (hd : ∀ c ∈ ds, c.isDigit = true) (hf : ∀ c ∈ fs, c.isDigit = true)
    {sc : Char} (hsc : sc = '+' ∨ sc = '-')
    (hese : es ≠ []) (he : ∀ c ∈ es, c.isDigit = true) (b : Bool) (l : List Char)
    (hsplit : splitSign l = (b, ds ++ ('.' :: (fs ++ 'e' :: sc :: es)))) :
    (parseFloatChars l).isSome = true := by
  unfold parseFloatChars
  rw [hsplit]
  simp only []
  rw [takeWhile_append_of_all _ hd, dropWhile_append_of_all _ hd,
    List.takeWhile_cons_of_neg (by decide), List.dropWhile_cons_of_neg (by decide)]
  have h1 := takeWhile_append_of_all ('e' :: sc :: es) hf
  have h2 := dropWhile_append_of_all ('e' :: sc :: es) hf
  rcases hsc with h | h <;> subst h <;>
    simp [hne, splitSign, h1, h2, List.takeWhile_cons, List.dropWhile_cons,
      takeWhile_eq_self_of_all he, dropWhile_eq_nil_of_all he, hese]

/-- The string of a float is the optional sign, a digit run, an optional
point-and-digits part, and an optional exponent part. -/
theorem ratRepr_shape (q : Rat) :
    ∃ (ds fs tail : List Char),
      (ratRepr q).data = (if q.num < 0 then ['-'] else []) ++ ds ++ fs ++ tail ∧
      ds ≠ [] ∧ (∀ c ∈ ds, c.isDigit = true) ∧
      (fs = [] ∨ ∃ fr, fs = '.' :: fr ∧ ∀ c ∈ fr, c.isDigit = true) ∧
      (tail = [] ∨ ∃ sc es, tail = 'e' :: sc :: es ∧ (sc = '+' ∨ sc = '-') ∧ es ≠ [] ∧
        ∀ c ∈ es, c.isDigit = true) := by
  unfold ratRepr
  dsimp only
  split
  · obtain ⟨sc, es, hexp, hsc, hese, hesd⟩ :=
      expChars_shape (ratExp10 (Rat.divInt (q.num.natAbs : Int) (q.den : Int)))
    rw [hexp]
    set m := (ratScale (Rat.divInt (q.num.natAbs : Int) (q.den : Int))
      (16 - ratExp10 (Rat.divInt (q.num.natAbs : Int) (q.den : Int)))).floor.toNat with hm
    have hdig : ∀ c ∈ trimZeros (natDigits m), c.isDigit = true :=
      fun c hc => natDigits_all_digit m c (trimZeros_subset c hc)
    rcases htz : trimZeros (natDigits m) with _ | ⟨c, rest⟩
    · exact ⟨['0'], [], 'e' :: sc :: es, by simp, by simp, by simp,
        Or.inl rfl, Or.inr ⟨sc, es, rfl, hsc, hese, hesd⟩⟩
    · have hc0 : c.isDigit = true := hdig c (by rw [htz]; simp)
      have hrestd : ∀ x ∈ rest, x.isDigit = true :=
        fun x hx => hdig x (by rw [htz]; simp [hx])
      by_cases hr : rest = []
      · subst hr
        refine ⟨[c], [], 'e' :: sc :: es, by simp, by simp, ?_,
          Or.inl rfl, Or.inr ⟨sc, es, rfl, hsc, hese, hesd⟩⟩
        intro x hx
        rcases List.mem_singleton.mp hx with hx
        rw [hx]
        exact hc0
      · refine ⟨[c], '.' :: rest, 'e' :: sc :: es, by simp [hr], by simp, ?_,
          Or.inr ⟨rest, rfl, hrestd⟩, Or.inr ⟨sc, es, rfl, hsc, hese, hesd⟩⟩
        intro x hx
        rcases List.mem_singleton.mp hx with hx
        rw [hx]
        exact hc0
  · exact ⟨natDigits (q.num.natAbs / q.den), '.' :: fracDigits 17 (q.num.natAbs % q.den) q.den,
      [], by simp, natDigits_ne_nil _, natDigits_all_digit _,
      Or.inr ⟨_, rfl, fracDigits_all_digit 17 _ _ q.den_pos (Nat.mod_lt _ q.den_pos)⟩,
      Or.inl rfl⟩

/-- Removing commas from a comma-free list changes nothing. -/
theorem stripCommas_eq_self {l : List Char} (h : ∀ c ∈ l, c ≠ ',') : stripCommas l = l := by
  unfold stripCommas
  rw [List.filter_eq_self]
  intro a ha
  have : (a == ',') = false := beq_eq_false_iff_ne.mpr (h a ha)
  rw [this]
  rfl

/-- The string of an int contains no comma. -/
theorem intToString_no_comma (n : Int) : ∀ c ∈ (intToString n).data, c ≠ ',' := by
  intro c hc
  unfold intToString at hc
  by_cases h : n < 0
  · rw [if_pos h] at hc
    simp at hc
    rcases hc with hc | hc
    · subst hc; decide
    · exact ne_of_isDigit (natDigits_all_digit _ c hc) (by decide)
  · rw [if_neg h] at hc
    simp at hc
    exact ne_of_isDigit (natDigits_all_digit _ c hc) (by decide)

/-- The string of a float contains no comma. -/
theorem ratRepr_no_comma (q : Rat) : ∀ c ∈ (ratRepr q).data, c ≠ ',' := by
  intro c hc
  obtain ⟨ds, fs, tail, hdata, _, hds, hfs, htail⟩ := ratRepr_shape q
  rw [hdata] at hc
  simp only [List.mem_append] at hc
  rcases hc with ((hc | hc) | hc) | hc
  · by_cases hn : q.num < 0
    · rw [if_pos hn] at hc
      rcases List.mem_singleton.mp hc with hc
      rw [hc]
      decide
    · rw [if_neg hn] at hc
      cases hc
  · exact ne_of_isDigit (hds c hc) (by decide)
  · rcases hfs with hfs | ⟨fr, hfr, hfrd⟩
    · subst hfs
      cases hc
    · subst hfr
      rcases List.mem_cons.mp hc with hc | hc
      · rw [hc]
        decide
      · exact ne_of_isDigit (hfrd c hc) (by decide)
  · rcases htail with htail | ⟨sc, es, hte, hsc, _, hesd⟩
    · subst htail
      cases hc
    · subst hte
      rcases List.mem_cons.mp hc with hc | hc
      · rw [hc]
        decide
      · rcases List.mem_cons.mp hc with hc | hc
        · rw [hc]
          rcases hsc with h | h <;> (rw [h]; decide)
        · exact ne_of_isDigit (hesd c hc) (by decide)

/-- The head of a dropWhile residue fails the predicate. -/
theorem head?_dropWhile_false {p : Char → Bool} (l : List Char) :
    ∀ c, (l.dropWhile p).head? = some c → p c = false := by
  intro c hc
  have h := List.head?_dropWhile_not p l
  rw [hc] at h
  exact h

/-- decomposeNum splits a string into an optional sign, a digit run and a
rest whose head is neither a digit nor (when the run is empty and there is no
sign) a minus, and recomposes to the original string. -/
theorem decomposeNum_spec (l : List Char) :
    l = (decomposeNum l).1 ++ (decomposeNum l).2.1 ++ (decomposeNum l).2.2 ∧
    ((decomposeNum l).1 = [] ∨ (decomposeNum l).1 = ['-']) ∧
    (∀ c ∈ (decomposeNum l).2.1, c.isDigit = true) ∧
    (∀ c, (decomposeNum l).2.2.head? = some c → c.isDigit = false) ∧
    ((decomposeNum l).2.1 = [] →
      (decomposeNum l).1 = ['-'] ∨ (decomposeNum l).2.2.head? ≠ some '-') := by
  rcases l with _ | ⟨c, t⟩
  · simp [decomposeNum]
  · by_cases hc : c = '-'
    · subst hc
      simp only [decomposeNum, if_pos rfl]
      refine ⟨?_, ?_, fun c h => List.mem_takeWhile_imp h,
        head?_dropWhile_false t, ?_⟩
      · simp [List.takeWhile_append_dropWhile]
      · simp
      · intro _
        simp
    · simp only [decomposeNum, if_neg hc]
      refine ⟨?_, ?_, fun c h => List.mem_takeWhile_imp h,
        head?_dropWhile_false (c :: t), ?_⟩
      · simp [List.takeWhile_append_dropWhile]
      · simp
      · intro hrun
        right
        have hcd : ¬ c.isDigit = true := by
          intro hd
          rw [List.takeWhile_cons_of_pos hd] at hrun
          cases hrun
        rw [List.dropWhile_cons_of_neg hcd]
        simp only [List.head?_cons]
        intro he
        injection he with he
        exact hc he

/-- For every value intcomma accepts, the original string representation
still parses as a float once commas are removed. -/
theorem intcommaValid_parse {v : PyVal} (h : intcommaValid v = true) :
    (parseFloatChars (stripCommas (pyStr v).data)).isSome = true := by
  cases v with
  | str s => exact h
  | none => cases h
  | int n =>
    show (parseFloatChars (stripCommas (intToString n).data)).isSome = true
    rw [stripCommas_eq_self (intToString_no_comma n)]
    unfold intToString
    by_cases hn : n < 0
    · rw [if_pos hn]
      exact parseFloatChars_some_digits (natDigits_ne_nil _) (natDigits_all_digit _)
        true _ (splitSign_minus _)
    · rw [if_neg hn]
      rcases hnd : natDigits n.natAbs with _ | ⟨c, t⟩
      · exact absurd hnd (natDigits_ne_nil _)
      · have hall := natDigits_all_digit n.natAbs
        rw [hnd] at hall
        exact parseFloatChars_some_digits (by simp) hall false _
          (splitSign_digit t (hall c (by simp)))
  | float q =>
    show (parseFloatChars (stripCommas (ratRepr q).data)).isSome = true
    rw [stripCommas_eq_self (ratRepr_no_comma q)]
    obtain ⟨ds, fs, tail, hdata, hne, hds, hfs, htail⟩ := ratRepr_shape q
    have hbody : ∀ (b : Bool) (l : List Char), splitSign l = (b, ds ++ fs ++ tail) →
        (parseFloatChars l).isSome = true := by
      intro b l hsplit
      rcases hfs with hfs0 | ⟨fr, hfr, hfrd⟩
      · subst hfs0
        rcases htail with ht0 | ⟨sc, es, hte, hsc, hese, hesd⟩
        · subst ht0
          rw [List.append_nil, List.append_nil] at hsplit
          exact parseFloatChars_some_digits hne hds b l hsplit
        · subst hte
          rw [List.append_nil] at hsplit
          exact parseFloatChars_some_expo hne hds hsc hese hesd b l hsplit
      · subst hfr
        rcases htail with ht0 | ⟨sc, es, hte, hsc, hese, hesd⟩
        · subst ht0
          rw [List.append_nil] at hsplit
          exact parseFloatChars_some_decimal hne hds hfrd b l hsplit
        · subst hte
          simp only [List.append_assoc, List.cons_append] at hsplit
          exact parseFloatChars_some_expo_dot hne hds hfrd hsc hese hesd b l hsplit
    rw [hdata]
    by_cases hn : q.num < 0
    · rw [if_pos hn]
      apply hbody true
      simp only [List.append_assoc, List.singleton_append]
      have := splitSign_minus (ds ++ (fs ++ tail))
      simpa [List.append_assoc] using this
    · rw [if_neg hn, List.nil_append]
      rcases hds0 : ds with _ | ⟨c, t⟩
      · exact absurd hds0 hne
      · subst hds0
        apply hbody false
        simp only [List.cons_append]
        exact splitSign_digit _ (hds c (by simp))

/-- Running the full recursion on a string with enough fuel (its length)
produces the sign, the grouped digit run and the untouched rest. -/
theorem commaFix_is_groups (l : List Char) :
    commaFix l.length l =
      (decomposeNum l).1 ++ groupFromRight (decomposeNum l).2.1 ++ (decomposeNum l).2.2 := by
  obtain ⟨hdec, hs, hr, hrest, hneg⟩ := decomposeNum_spec l
  set sgn := (decomposeNum l).1 with hsgn
  set run := (decomposeNum l).2.1 with hrun
  set rest := (decomposeNum l).2.2 with hrest2
  have hlen : run.length ≤ l.length := by
    rw [hdec]
    simp only [List.length_append]
    omega
  calc commaFix l.length l = commaFix l.length (sgn ++ run ++ rest) := by rw [← hdec]
    _ = sgn ++ groupAux l.length run ++ rest :=
        commaFix_groups l.length sgn run rest hs hr hrest hneg (by omega)
    _ = sgn ++ groupFromRight run ++ rest := by
        rw [groupFromRight, groupAux_stable l.length run.length run (by omega) (by omega)]

/-- The output of the recursion is a fixed point of the regex pass. -/
theorem commaFix_result_fixed (l : List Char) :
    commaStep (commaFix l.length l) = commaFix l.length l := by
  rw [commaFix_is_groups]
  obtain ⟨hdec, hs, hr, hrest, hneg⟩ := decomposeNum_spec l
  set sgn := (decomposeNum l).1 with hsgn
  set run := (decomposeNum l).2.1 with hrun
  set rest := (decomposeNum l).2.2 with hrest2
  obtain ⟨a, b, heq, ha, halen, hb, hanil⟩ :=
    groupAux_head_run run.length run hr (by omega)
  rw [groupFromRight, heq]
  have hresthead : ∀ c, (b ++ rest).head? = some c → c.isDigit = false := by
    intro c hc
    rcases hb with hb | hb
    · subst hb
      exact hrest c (by simpa using hc)
    · rcases b with _ | ⟨x, t⟩
      · cases hb
      · simp only [List.head?_cons] at hb
        injection hb with hb
        subst hb
        simp only [List.cons_append, List.head?_cons] at hc
        injection hc with hc
        subst hc
        decide
  have hneg2 : a = [] → sgn = ['-'] ∨ (b ++ rest).head? ≠ some '-' := by
    intro hae
    have hrune : run = [] := hanil hae
    have hbe : b = [] := by
      have h0 := heq
      rw [hrune, hae] at h0
      simpa [groupAux] using h0.symm
    subst hae hbe
    simp only [List.nil_append]
    exact hneg hrune
  have hgoal := commaStep_id hs ha hresthead hneg2 halen
  simp only [List.append_assoc, List.cons_append] at hgoal ⊢
  exact hgoal

/-- C5: intcomma is idempotent; applying the grouping pass to an
already-grouped result produces no further change. -/
theorem intcomma_idempotent (x : PyVal) : intcomma (intcomma x) = intcomma x := by
  by_cases hv : intcommaValid x = true
  · have h1 : intcomma x = .str (String.mk (commaFix (pyStr x).data.length (pyStr x).data)) := by
      unfold intcomma
      rw [if_pos hv]
    set g := commaFix (pyStr x).data.length (pyStr x).data with hg
    have hvalid2 : intcommaValid (.str (String.mk g)) = true := by
      show (parseFloatChars (stripCommas (String.mk g).data)).isSome = true
      have hdm : (String.mk g).data = g := rfl
      rw [hdm, hg, stripCommas_commaFix]
      exact intcommaValid_parse hv
    have hfix : commaStep g = g := commaFix_result_fixed (pyStr x).data
    rw [h1]
    unfold intcomma
    rw [if_pos hvalid2]
    show PyVal.str (String.mk (commaFix g.length g)) = PyVal.str (String.mk g)
    rw [commaFix_of_fixed hfix g.length]
  · have h1 : intcomma x = x := by
      unfold intcomma
      rw [if_neg hv]
    rw [h1]
    exact h1

/-- C9: for every accepted value, intcomma returns the string form with its
leading digit run grouped by commas every three digits from the right, the
leading minus sign and everything from the first non-digit onward (such as a
fractional part) untouched; in particular intcomma(3000) = "3,000" and
intcomma(-1234567) = "-1,234,567". -/
theorem intcomma_groups_left_of_point :
    (∀ v : PyVal, intcommaValid v = true →
      intcomma v = .str (String.mk ((decomposeNum (pyStr v).data).1 ++
        groupFromRight (decomposeNum (pyStr v).data).2.1 ++
        (decomposeNum (pyStr v).data).2.2)))
    ∧ intcomma (.int 3000) = .str "3,000"
    ∧ intcomma (.int (-1234567)) = .str "-1,234,567" := by
  refine ⟨?_, by decide, by decide⟩
  intro v hv
  unfold intcomma
  rw [if_pos hv]
  show PyVal.str (String.mk (commaFix (pyStr v).data.length (pyStr v).data)) = _
  rw [commaFix_is_groups]

/-- Round a rational to the nearest integer, ties to the even integer.  This
is the rounding applied by Python float formatting, idealized to exact
rationals.  The comparison of the fractional part with one half is done on
the numerator scale: x - floor x compares to 1/2 as 2*(num - floor*den)
compares to den (den is positive). -/
def roundHalfEven (x : Rat) : Int :=
  let f := x.floor
  let t := 2 * (x.num - f * (x.den : Int))
  if t < (x.den : Int) then f
  else if (x.den : Int) < t then f + 1
  else if f % 2 = 0 then f else f + 1

/-- x * 10^p computed on the numerator (kernel-computable, equal to the
product with 10^p). -/
def ratMulPow10 (x : Rat) (p : Nat) : Rat := Rat.divInt (x.num * 10 ^ p) (x.den : Int)

/-- Zeros padded on the left to the requested width. -/
def padZeros (p : Nat) (ds : List Char) : List Char :=
  List.replicate (p - ds.length) '0' ++ ds

/-- Python fixed-point formatting "%.pf" of a rational value with p decimal
places (intword's default format "%.1f" is p = 1): round at p decimals with
ties to even, then print the sign, the integer digits and exactly p
fractional digits after a point (and no point at all when p = 0, as Python
does for "%.0f"). -/
def formatFixed (p : Nat) (x : Rat) : List Char :=
  let M := roundHalfEven (ratMulPow10 x p)
  let sgn : List Char := if M < 0 then ['-'] else []
  let a := M.natAbs
  if p = 0 then sgn ++ natDigits a
  else sgn ++ natDigits (a / 10 ^ p) ++ '.' :: padZeros p (natDigits (a % 10 ^ p))

/-- The list powers from number.py: 10 ** x for x in (6, 9, ..., 33, 100). -/
def powers : List Int :=
  [10 ^ 6, 10 ^ 9, 10 ^ 12, 10 ^ 15, 10 ^ 18, 10 ^ 21, 10 ^ 24, 10 ^ 27, 10 ^ 30, 10 ^ 33,
   10 ^ 100]

/-- The tuple human_powers from number.py; every entry is wrapped in the
no-op marker N_ at module level. -/
def human_powers : List String :=
  [gettext_noop "million", gettext_noop "billion", gettext_noop "trillion",
   gettext_noop "quadrillion", gettext_noop "quintillion", gettext_noop "sextillion",
   gettext_noop "septillion", gettext_noop "octillion", gettext_noop "nonillion",
   gettext_noop "decillion", gettext_noop "googol"]

/-- The pairs of previous and current (threshold, word) visited by intword's
loop for ordinal, power in enumerate(powers[1:], 1): the current entry is
(powers[ordinal], human_powers[ordinal]) and the previous one is
(powers[ordinal - 1], human_powers[ordinal - 1]). -/
def intwordPairs : List ((Int × String) × (Int × String)) :=
  (powers.zip human_powers).zip ((powers.zip human_powers).drop 1)

/-- The loop of intword over the adjacent threshold pairs: at the first
threshold exceeding the value, format value divided by the previous
threshold; when the formatted mantissa is exactly 1000, divide by the
current threshold and use its word instead.  The Python test
float(format % chopped) == float(10 ** 3) holds exactly when the mantissa
rounded at p decimals equals 1000, that is when
roundHalfEven(chopped * 10^p) = 1000 * 10^p. -/
def intwordLoop (value : Int) (p : Nat) :
    List ((Int × String) × (Int × String)) → Option String
  | [] => Option.none
  | (prev, cur) :: rest =>
    if value < cur.1 then
      if roundHalfEven (ratMulPow10 (Rat.divInt value prev.1) p) = 1000 * 10 ^ p then
        some (String.mk (formatFixed p (Rat.divInt value cur.1)) ++ " " ++ gettext cur.2)
      else
        some (String.mk (formatFixed p (Rat.divInt value prev.1)) ++ " " ++ gettext prev.2)
    else intwordLoop value p rest

/-- intword from number.py: coerce to int (returning the input unchanged on
failure); below the first power return the plain integer string; otherwise
run the loop, and if no threshold matched (value at or beyond the googol)
fall through to the plain integer string. -/
def intword (value : PyVal) (p : Nat := 1) : PyVal :=
  match pyInt value with
  | Option.none => value
  | some v =>
    if v < powers.getD 0 0 then .str (intToString v)
    else
      match intwordLoop v p intwordPairs with
      | some s => .str s
      | Option.none => .str (intToString v)

/-- A threshold at or below the value is skipped by the loop. -/
theorem intwordLoop_skip {value : Int} {p : Nat} {prev cur : Int × String}
    {rest : List ((Int × String) × (Int × String))} (h : cur.1 ≤ value) :
    intwordLoop value p ((prev, cur) :: rest) = intwordLoop value p rest := by
  conv_lhs => rw [intwordLoop]
  rw [if_neg (not_lt.mpr h)]

/-- The first threshold exceeding the value resolves the loop. -/
theorem intwordLoop_hit {value : Int} {p : Nat} {prev cur : Int × String}
    {rest : List ((Int × String) × (Int × String))} (h : value < cur.1) :
    intwordLoop value p ((prev, cur) :: rest) =
      some (if roundHalfEven (ratMulPow10 (Rat.divInt value prev.1) p) = 1000 * 10 ^ p
        then String.mk (formatFixed p (Rat.divInt value cur.1)) ++ " " ++ gettext cur.2
        else String.mk (formatFixed p (Rat.divInt value prev.1)) ++ " " ++ gettext prev.2) := by
  unfold intwordLoop
  rw [if_pos h]
  by_cases hc : roundHalfEven (ratMulPow10 (Rat.divInt value prev.1) p) = 1000 * 10 ^ p
  · rw [if_pos hc, if_pos hc]
  · rw [if_neg hc, if_neg hc]

/-- Above the first power, intword is decided by the loop. -/
theorem intword_int_unfold (n : Int) (p : Nat) (h : (10 : Int) ^ 6 ≤ n) :
    intword (.int n) p = (match intwordLoop n p intwordPairs with
      | some s => PyVal.str s
      | Option.none => PyVal.str (intToString n)) := by
  unfold intword
  simp only [pyInt]
  rw [show powers.getD 0 0 = 10 ^ 6 from rfl, if_neg (not_lt.mpr h)]

/-- The adjacent threshold pairs, written out. -/
theorem intwordPairs_eq : intwordPairs =
    [((10 ^ 6, "million"), (10 ^ 9, "billion")),
     ((10 ^ 9, "billion"), (10 ^ 12, "trillion")),
     ((10 ^ 12, "trillion"), (10 ^ 15, "quadrillion")),
     ((10 ^ 15, "quadrillion"), (10 ^ 18, "quintillion")),
     ((10 ^ 18, "quintillion"), (10 ^ 21, "sextillion")),
     ((10 ^ 21, "sextillion"), (10 ^ 24, "septillion")),
     ((10 ^ 24, "septillion"), (10 ^ 27, "octillion")),
     ((10 ^ 27, "octillion"), (10 ^ 30, "nonillion")),
     ((10 ^ 30, "nonillion"), (10 ^ 33, "decillion")),
     ((10 ^ 33, "decillion"), (10 ^ 100, "googol"))] := rfl

/-- On the band between two adjacent thresholds, intword formats the value
divided by the lower threshold, promoting to the upper threshold and its
word exactly when the mantissa rounds to 1000. -/
theorem intword_interval {n prevPow nextPow : Int} {prevW nextW : String}
    (hmem : ((prevPow, prevW), (nextPow, nextW)) ∈ intwordPairs)
    (hlo : prevPow ≤ n) (hhi : n < nextPow) :
    intword (.int n) = .str
      (if roundHalfEven (ratMulPow10 (Rat.divInt n prevPow) 1) = 1000 * 10 ^ 1
       then String.mk (formatFixed 1 (Rat.divInt n nextPow)) ++ " " ++ nextW
       else String.mk (formatFixed 1 (Rat.divInt n prevPow)) ++ " " ++ prevW) := by
  rw [intwordPairs_eq] at hmem
  simp only [List.mem_cons, List.not_mem_nil, or_false, Prod.mk.injEq] at hmem
  rcases hmem with ⟨⟨rfl, rfl⟩, rfl, rfl⟩ | ⟨⟨rfl, rfl⟩, rfl, rfl⟩ | ⟨⟨rfl, rfl⟩, rfl, rfl⟩ |
    ⟨⟨rfl, rfl⟩, rfl, rfl⟩ | ⟨⟨rfl, rfl⟩, rfl, rfl⟩ | ⟨⟨rfl, rfl⟩, rfl, rfl⟩ |
    ⟨⟨rfl, rfl⟩, rfl, rfl⟩ | ⟨⟨rfl, rfl⟩, rfl, rfl⟩ | ⟨⟨rfl, rfl⟩, rfl, rfl⟩ |
    ⟨⟨rfl, rfl⟩, rfl, rfl⟩
  · rw [intword_int_unfold n 1 (le_trans (by norm_num) hlo), intwordPairs_eq,
      intwordLoop_hit hhi]
    simp [gettext]
  · rw [intword_int_unfold n 1 (le_trans (by norm_num) hlo), intwordPairs_eq,
      intwordLoop_skip (le_trans (by norm_num) hlo),
      intwordLoop_hit hhi]
    simp [gettext]
  · rw [intword_int_unfold n 1 (le_trans (by norm_num) hlo), intwordPairs_eq,
      intwordLoop_skip (le_trans (by norm_num) hlo),
      intwordLoop_skip (le_trans (by norm_num) hlo),
      intwordLoop_hit hhi]
    simp [gettext]
  · rw [intword_int_unfold n 1 (le_trans (by norm_num) hlo), intwordPairs_eq,
      intwordLoop_skip (le_trans (by norm_num) hlo),
      intwordLoop_skip (le_trans (by norm_num) hlo),
      intwordLoop_skip (le_trans (by norm_num) hlo),
      intwordLoop_hit hhi]
    simp [gettext]
  · rw [intword_int_unfold n 1 (le_trans (by norm_num) hlo), intwordPairs_eq,
      intwordLoop_skip (le_trans (by norm_num) hlo),
      intwordLoop_skip (le_trans (by norm_num) hlo),
      intwordLoop_skip (le_trans (by norm_num) hlo),
      intwordLoop_skip (le_trans (by norm_num) hlo),
      intwordLoop_hit hhi]
    simp [gettext]
  · rw [intword_int_unfold n 1 (le_trans (by norm_num) hlo), intwordPairs_eq,
      intwordLoop_skip (le_trans (by norm_num) hlo),
      intwordLoop_skip (le_trans (by norm_num) hlo),
      intwordLoop_skip (le_trans (by norm_num) hlo),
      intwordLoop_skip (le_trans (by norm_num) hlo),
      intwordLoop_skip (le_trans (by norm_num) hlo),
      intwordLoop_hit hhi]
    simp [gettext]
  · rw [intword_int_unfold n 1 (le_trans (by norm_num) hlo), intwordPairs_eq,
      intwordLoop_skip (le_trans (by norm_num) hlo),
      intwordLoop_skip (le_trans (by norm_num) hlo),
      intwordLoop_skip (le_trans (by norm_num) hlo),
      intwordLoop_skip (le_trans (by norm_num) hlo),
      intwordLoop_skip (le_trans (by norm_num) hlo),
      intwordLoop_skip (le_trans (by norm_num) hlo),
      intwordLoop_hit hhi]
    simp [gettext]
  · rw [intword_int_unfold n 1 (le_trans (by norm_num) hlo), intwordPairs_eq,
      intwordLoop_skip (le_trans (by norm_num) hlo),
      intwordLoop_skip (le_trans (by norm_num) hlo),
      intwordLoop_skip (le_trans (by norm_num) hlo),
      intwordLoop_skip (le_trans (by norm_num) hlo),
      intwordLoop_skip (le_trans (by norm_num) hlo),
      intwordLoop_skip (le_trans (by norm_num) hlo),
      intwordLoop_skip (le_trans (by norm_num) hlo),
      intwordLoop_hit hhi]
    simp [gettext]
  · rw [intword_int_unfold n 1 (le_trans (by norm_num) hlo), intwordPairs_eq,
      intwordLoop_skip (le_trans (by norm_num) hlo),
      intwordLoop_skip (le_trans (by norm_num) hlo),
      intwordLoop_skip (le_trans (by norm_num) hlo),
      intwordLoop_skip (le_trans (by norm_num) hlo),
      intwordLoop_skip (le_trans (by norm_num) hlo),
      intwordLoop_skip (le_trans (by norm_num) hlo),
      intwordLoop_skip (le_trans (by norm_num) hlo),
      intwordLoop_skip (le_trans (by norm_num) hlo),
      intwordLoop_hit hhi]
    simp [gettext]
  · rw [intword_int_unfold n 1 (le_trans (by norm_num) hlo), intwordPairs_eq,
      intwordLoop_skip (le_trans (by norm_num) hlo),
      intwordLoop_skip (le_trans (by norm_num) hlo),
      intwordLoop_skip (le_trans (by norm_num) hlo),
      intwordLoop_skip (le_trans (by norm_num) hlo),
      intwordLoop_skip (le_trans (by norm_num) hlo),
      intwordLoop_skip (le_trans (by norm_num) hlo),
      intwordLoop_skip (le_trans (by norm_num) hlo),
      intwordLoop_skip (le_trans (by norm_num) hlo),
      intwordLoop_skip (le_trans (by norm_num) hlo),
      intwordLoop_hit hhi]
    simp [gettext]

/-- The rounded value is the floor or the floor plus one. -/
theorem roundHalfEven_cases (x : Rat) :
    roundHalfEven x = x.floor ∨ roundHalfEven x = x.floor + 1 := by
  unfold roundHalfEven
  by_cases h1 : 2 * (x.num - x.floor * (x.den : Int)) < (x.den : Int)
  · left
    simp [h1]
  · by_cases h2 : (x.den : Int) < 2 * (x.num - x.floor * (x.den : Int))
    · right
      simp [h1, h2]
    · by_cases h3 : x.floor % 2 = 0
      · left
        simp [h1, h2, h3]
      · right
        simp [h1, h2, h3]

/-- A value strictly below an integer rounds to at most that integer. -/
theorem roundHalfEven_le_of_lt {x : Rat} {B : Int} (h : x < (B : Rat)) :
    roundHalfEven x ≤ B := by
  have h1 : ((x.floor : Int) : Rat) ≤ x := Rat.le_floor.mp (le_refl _)
  have h2 : ((x.floor : Int) : Rat) < (B : Rat) := lt_of_le_of_lt h1 h
  have h3 : x.floor < B := by exact_mod_cast h2
  rcases roundHalfEven_cases x with hc | hc <;> omega

/-- ratMulPow10 really multiplies by the power of ten. -/
theorem ratMulPow10_eq (x : Rat) (p : Nat) :
    ratMulPow10 x p = x * (((10 : Int) ^ p : Int) : Rat) := by
  unfold ratMulPow10
  conv_rhs => rw [← Rat.num_divInt_den x, Rat.intCast_eq_divInt]
  rw [Rat.divInt_mul_divInt', mul_one]

/-- Strict comparison of divInt with an integer cast. -/
theorem divInt_lt_intCast {a b B : Int} (hb : 0 < b) (h : a < B * b) :
    Rat.divInt a b < (B : Rat) := by
  rw [Rat.intCast_eq_divInt, lt_iff_not_ge]
  intro hge
  rw [ge_iff_le, Rat.divInt_le_divInt one_pos hb] at hge
  omega

/-- Scaled mantissa bound: if n * 10^p < B * b, the p-scaled quotient n/b is
below B. -/
theorem ratMulPow10_divInt_lt {n b B : Int} (hb : 0 < b) (p : Nat)
    (h : n * 10 ^ p < B * b) :
    ratMulPow10 (Rat.divInt n b) p < (B : Rat) := by
  have heq : ratMulPow10 (Rat.divInt n b) p = Rat.divInt (n * 10 ^ p) b := by
    rw [ratMulPow10_eq, Rat.intCast_eq_divInt, Rat.divInt_mul_divInt', mul_one]
  rw [heq]
  exact divInt_lt_intCast hb h

/-- On a band where the value is below 1000 times the lower threshold, the
emitted mantissa rounds strictly below 1000.0. -/
theorem intword_mantissa_bounded {n prevPow nextPow : Int} {prevW nextW : String}
    (hmem : ((prevPow, prevW), (nextPow, nextW)) ∈ intwordPairs)
    (hlo : prevPow ≤ n) (hhi : n < nextPow)
    (hprev : 0 < prevPow) (hnext : 0 < nextPow)
    (hband : n < 1000 * prevPow) :
    ∃ m w, intword (.int n) = .str (String.mk (formatFixed 1 m) ++ " " ++ w) ∧
      roundHalfEven (ratMulPow10 m 1) < 10000 := by
  rw [intword_interval hmem hlo hhi]
  by_cases hc : roundHalfEven (ratMulPow10 (Rat.divInt n prevPow) 1) = 1000 * 10 ^ 1
  · rw [if_pos hc]
    refine ⟨Rat.divInt n nextPow, nextW, rfl, ?_⟩
    have hlt : ratMulPow10 (Rat.divInt n nextPow) 1 < ((10 : Int) : Rat) :=
      ratMulPow10_divInt_lt hnext 1 (by nlinarith)
    have hle := roundHalfEven_le_of_lt hlt
    omega
  · rw [if_neg hc]
    refine ⟨Rat.divInt n prevPow, prevW, rfl, ?_⟩
    have hlt : ratMulPow10 (Rat.divInt n prevPow) 1 < ((10000 : Int) : Rat) :=
      ratMulPow10_divInt_lt hprev 1 (by nlinarith)
    have h1 := roundHalfEven_le_of_lt hlt
    have h2 : roundHalfEven (ratMulPow10 (Rat.divInt n prevPow) 1) ≠ 10000 := by
      rw [show (1000 : Int) * 10 ^ 1 = 10000 from by norm_num] at hc
      exact hc
    omega

/-- C2 counterexample: just above the decillion threshold the mantissa
"1000.5" is emitted with the decillion word, a four-digit mantissa that the
claim rules out. -/
theorem intword_emits_four_digit_mantissa :
    intword (.int (10005 * 10 ^ 32)) = .str "1000.5 decillion" := by decide

/-- C2 (amended): whenever the default-format mantissa rounds to exactly
1000 at a magnitude, intword divides by the next threshold and uses the next
magnitude word; and for every integer below 10^36 the emitted mantissa
rounds strictly below 1000.0 (between decillion, 10^33, and googol, 10^100,
adjacent thresholds are a factor of 10^67 apart, so larger inputs can show
four-digit and wider mantissas, as intword(10005 * 10^32) does). -/
theorem intword_promotes_on_round_1000 :
    (∀ (n prevPow nextPow : Int) (prevW nextW : String),
      ((prevPow, prevW), (nextPow, nextW)) ∈ intwordPairs → prevPow ≤ n → n < nextPow →
      roundHalfEven (ratMulPow10 (Rat.divInt n prevPow) 1) = 1000 * 10 ^ 1 →
      intword (.int n) = .str (String.mk (formatFixed 1 (Rat.divInt n nextPow)) ++ " " ++ nextW))
    ∧ (∀ n : Int, n < 10 ^ 36 →
      intword (.int n) = .str (intToString n) ∨
      ∃ m w, intword (.int n) = .str (String.mk (formatFixed 1 m) ++ " " ++ w) ∧
        roundHalfEven (ratMulPow10 m 1) < 10000) := by
  constructor
  · intro n prevPow nextPow prevW nextW hmem hlo hhi hc
    rw [intword_interval hmem hlo hhi, if_pos hc]
  · intro n hn
    by_cases h6 : n < 10 ^ 6
    · left
      unfold intword
      simp only [pyInt]
      rw [show powers.getD 0 0 = 10 ^ 6 from rfl, if_pos h6]
    · right
      push_neg at h6
      by_cases h9 : n < 10 ^ 9
      · exact intword_mantissa_bounded
          (show (((10 : Int) ^ 6, "million"), ((10 : Int) ^ 9, "billion")) ∈ intwordPairs by
            rw [intwordPairs_eq]; simp) h6 h9
          (by norm_num) (by norm_num)
          (by rw [show (1000 : Int) * 10 ^ 6 = 10 ^ 9 from by norm_num]; exact h9)
      push_neg at h9
      by_cases h12 : n < 10 ^ 12
      · exact intword_mantissa_bounded
          (show (((10 : Int) ^ 9, "billion"), ((10 : Int) ^ 12, "trillion")) ∈ intwordPairs by
            rw [intwordPairs_eq]; simp) h9 h12
          (by norm_num) (by norm_num)
          (by rw [show (1000 : Int) * 10 ^ 9 = 10 ^ 12 from by norm_num]; exact h12)
      push_neg at h12
      by_cases h15 : n < 10 ^ 15
      · exact intword_mantissa_bounded
          (show (((10 : Int) ^ 12, "trillion"), ((10 : Int) ^ 15, "quadrillion")) ∈ intwordPairs by
            rw [intwordPairs_eq]; simp) h12 h15
          (by norm_num) (by norm_num)
          (by rw [show (1000 : Int) * 10 ^ 12 = 10 ^ 15 from by norm_num]; exact h15)
      push_neg at h15
      by_cases h18 : n < 10 ^ 18
      · exact intword_mantissa_bounded
          (show (((10 : Int) ^ 15, "quadrillion"), ((10 : Int) ^ 18, "quintillion")) ∈ intwordPairs by
            rw [intwordPairs_eq]; simp) h15 h18
          (by norm_num) (by norm_num)
          (by rw [show (1000 : Int) * 10 ^ 15 = 10 ^ 18 from by norm_num]; exact h18)
      push_neg at h18
      by_cases h21 : n < 10 ^ 21
      · exact intword_mantissa_bounded
          (show (((10 : Int) ^ 18, "quintillion"), ((10 : Int) ^ 21, "sextillion")) ∈ intwordPairs by
            rw [intwordPairs_eq]; simp) h18 h21
          (by norm_num) (by norm_num)
          (by rw [show (1000 : Int) * 10 ^ 18 = 10 ^ 21 from by norm_num]; exact h21)
      push_neg at h21
      by_cases h24 : n < 10 ^ 24
      · exact intword_mantissa_bounded
          (show (((10 : Int) ^ 21, "sextillion"), ((10 : Int) ^ 24, "septillion")) ∈ intwordPairs by
            rw [intwordPairs_eq]; simp) h21 h24
          (by norm_num) (by norm_num)
          (by rw [show (1000 : Int) * 10 ^ 21 = 10 ^ 24 from by norm_num]; exact h24)
      push_neg at h24
      by_cases h27 : n < 10 ^ 27
      · exact intword_mantissa_bounded
          (show (((10 : Int) ^ 24, "septillion"), ((10 : Int) ^ 27, "octillion")) ∈ intwordPairs by
            rw [intwordPairs_eq]; simp) h24 h27
          (by norm_num) (by norm_num)
          (by rw [show (1000 : Int) * 10 ^ 24 = 10 ^ 27 from by norm_num]; exact h27)
      push_neg at h27
      by_cases h30 : n < 10 ^ 30
      · exact intword_mantissa_bounded
          (show (((10 : Int) ^ 27, "octillion"), ((10 : Int) ^ 30, "nonillion")) ∈ intwordPairs by
            rw [intwordPairs_eq]; simp) h27 h30
          (by norm_num) (by norm_num)
          (by rw [show (1000 : Int) * 10 ^ 27 = 10 ^ 30 from by norm_num]; exact h30)
      push_neg at h30
      by_cases h33 : n < 10 ^ 33
      · exact intword_mantissa_bounded
          (show (((10 : Int) ^ 30, "nonillion"), ((10 : Int) ^ 33, "decillion")) ∈ intwordPairs by
            rw [intwordPairs_eq]; simp) h30 h33
          (by norm_num) (by norm_num)
          (by rw [show (1000 : Int) * 10 ^ 30 = 10 ^ 33 from by norm_num]; exact h33)
      push_neg at h33
      exact intword_mantissa_bounded
          (show (((10 : Int) ^ 33, "decillion"), ((10 : Int) ^ 100, "googol")) ∈ intwordPairs by
            rw [intwordPairs_eq]; simp) h33
        (lt_trans hn (by norm_num)) (by norm_num) (by norm_num)
        (by rw [show (1000 : Int) * 10 ^ 33 = 10 ^ 36 from by norm_num]; exact hn)

/-- C7: below one million and at or beyond the googol, intword returns the
plain integer string; within range intword(1000000) = "1.0 million" and
intword(1200000000) = "1.2 billion". -/
theorem intword_plain_out_of_range :
    (∀ n : Int, n < 10 ^ 6 → intword (.int n) = .str (intToString n))
    ∧ (∀ n : Int, 10 ^ 100 ≤ n → intword (.int n) = .str (intToString n))
    ∧ intword (.int 1000000) = .str "1.0 million"
    ∧ intword (.int 1200000000) = .str "1.2 billion" := by
  refine ⟨?_, ?_, by decide, by decide⟩
  · intro n h
    unfold intword
    simp only [pyInt]
    rw [show powers.getD 0 0 = 10 ^ 6 from rfl, if_pos h]
  · intro n h
    have hp : ∀ k : Nat, k ≤ 100 → (10 : Int) ^ k ≤ n :=
      fun k hk => le_trans (pow_le_pow_right₀ (by norm_num) hk) h
    rw [intword_int_unfold n 1 (hp 6 (by norm_num)), intwordPairs_eq,
      intwordLoop_skip (hp 9 (by norm_num)), intwordLoop_skip (hp 12 (by norm_num)),
      intwordLoop_skip (hp 15 (by norm_num)), intwordLoop_skip (hp 18 (by norm_num)),
      intwordLoop_skip (hp 21 (by norm_num)), intwordLoop_skip (hp 24 (by norm_num)),
      intwordLoop_skip (hp 27 (by norm_num)), intwordLoop_skip (hp 30 (by norm_num)),
      intwordLoop_skip (hp 33 (by norm_num)), intwordLoop_skip (hp 100 (by norm_num))]
    rfl

/-- a - b computed on numerators and denominators (kernel-computable; the
bridge lemma below shows it is subtraction). -/
def ratSub (a b : Rat) : Rat :=
  Rat.divInt (a.num * b.den - b.num * a.den) ((a.den : Int) * (b.den : Int))

/-- q - w for an integer w, computed on the numerator. -/
def ratSubInt (q : Rat) (w : Int) : Rat := Rat.divInt (q.num - w * q.den) (q.den : Int)

/-- Absolute value, by numerator sign (kernel-computable). -/
def ratAbs (a : Rat) : Rat := if a.num < 0 then -a else a

/-- State of the continued-fraction loop of Fraction.limit_denominator:
the two previous convergents p0/q0 and p1/q1 and the remaining fraction
n/d. -/
structure CFState where
  p0 : Int
  q0 : Int
  p1 : Int
  q1 : Int
  n : Int
  d : Int
deriving DecidableEq

/-- The while loop of CPython's Fraction.limit_denominator (the library call
made by fractional; modelled from its documented algorithm since the
fractions module is outside the sources under review): repeatedly take
a = n // d, push the convergent, and stop when the next denominator would
exceed the bound.  Python's floor division and modulo coincide with Lean's
Int division and modulo because every divisor reached here is positive.  The
d ≤ 0 guard is unreachable for the reduced fractions the function is called
on (the expansion would only exhaust after producing the exact denominator,
which exceeds the bound); it makes the model total, and the fuel of 64 used
below is never exhausted because convergent denominators grow at least as
fast as the Fibonacci numbers, so fewer than 20 iterations reach any bound
up to 10^12. -/
def cfLoop (maxd : Int) : Nat → CFState → CFState
  | 0, s => s
  | fuel + 1, s =>
    if s.d ≤ 0 then s
    else
      let a := s.n / s.d
      if maxd < s.q0 + a * s.q1 then s
      else cfLoop maxd fuel ⟨s.p1, s.q1, s.p0 + a * s.p1, s.q0 + a * s.q1, s.d, s.n - a * s.d⟩

/-- The selection after the loop of Fraction.limit_denominator: build the
two candidate bounds from the final state and keep the one closer to the
value (bound2 wins ties, as in Python's abs(bound2 - self) <=
abs(bound1 - self)). -/
def cfSelect (maxd : Int) (r : Rat) (s : CFState) : Rat :=
  let k := (maxd - s.q0) / s.q1
  let bound1 := mkRat (s.p0 + k * s.p1) (s.q0 + k * s.q1).toNat
  let bound2 := mkRat s.p1 s.q1.toNat
  if ratAbs (ratSub bound2 r) ≤ ratAbs (ratSub bound1 r) then bound2 else bound1

/-- Fraction.limit_denominator(max_denominator): the closest fraction with
denominator at most the bound. -/
def limit_denominator (r : Rat) (maxd : Int) : Rat :=
  if (r.den : Int) ≤ maxd then r
  else cfSelect maxd r (cfLoop maxd 64 ⟨0, 1, 1, 0, r.num, (r.den : Int)⟩)

/-- fractional from number.py: float(value) (returning the input on
failure), split off the truncated whole part, approximate the remainder by
Fraction(remainder).limit_denominator(1000), and print the whole number, the
bare fraction, or the mixed form.  frac._numerator and frac._denominator are
the reduced numerator and denominator of the Fraction, and the "{:.0f}"
formats print the integers in plain decimal. -/
def fractional (value : PyVal) : PyVal :=
  match pyFloat value with
  | Option.none => value
  | some number =>
    let whole_number := ratTrunc number
    let frac := limit_denominator (ratSubInt number whole_number) 1000
    let numerator := frac.num
    let denominator := (frac.den : Int)
    if whole_number ≠ 0 ∧ numerator = 0 ∧ denominator = 1 then
      .str (intToString whole_number)
    else if whole_number = 0 then
      .str (intToString numerator ++ "/" ++ intToString denominator)
    else
      .str (intToString whole_number ++ " " ++ intToString numerator ++ "/" ++
        intToString denominator)

/-- ratSub is subtraction. -/
theorem ratSub_eq (a b : Rat) : ratSub a b = a - b := by
  unfold ratSub
  conv_rhs => rw [← Rat.num_divInt_den a, ← Rat.num_divInt_den b]
  rw [Rat.divInt_sub_divInt _ _ (by exact_mod_cast a.den_nz) (by exact_mod_cast b.den_nz)]

/-- ratSubInt subtracts an integer. -/
theorem ratSubInt_eq (q : Rat) (w : Int) : ratSubInt q w = q - (w : Rat) := by
  unfold ratSubInt
  conv_rhs => rw [← Rat.num_divInt_den q, Rat.intCast_eq_divInt]
  rw [Rat.divInt_sub_divInt _ _ (by exact_mod_cast q.den_nz) one_ne_zero, mul_one, mul_one]

/-- ratAbs is the absolute value. -/
theorem ratAbs_eq (a : Rat) : ratAbs a = |a| := by
  unfold ratAbs
  by_cases h : a.num < 0
  · have ha : a < 0 := by
      by_contra hc
      push_neg at hc
      exact absurd (Rat.num_nonneg.mpr hc) (not_le.mpr h)
    rw [if_pos h, abs_of_neg ha]
  · have ha : 0 ≤ a := Rat.num_nonneg.mp (not_lt.mp h)
    rw [if_neg h, abs_of_nonneg ha]

/-- Loop invariant of the continued-fraction loop: convergent denominators
stay between 1 and the bound, and the remaining fraction n/d keeps
0 ≤ d ≤ n. -/
def CFInv (maxd : Int) (s : CFState) : Prop :=
  1 ≤ s.q1 ∧ 0 ≤ s.q0 ∧ s.q0 ≤ maxd ∧ s.q1 ≤ maxd ∧ 0 ≤ s.d ∧ s.d ≤ s.n

/-- Sign invariant of the loop for a negative input fraction: the convergent
numerators never become positive (after the first step, whose state is the
left disjunct). -/
def CFSignInv (s : CFState) : Prop :=
  (s.p0 = 1 ∧ s.q0 = 0 ∧ s.p1 ≤ -1) ∨ (s.p0 ≤ 0 ∧ s.p1 ≤ 0)

/-- One loop step preserves the invariant. -/
theorem cfLoop_inv (maxd : Int) : ∀ (fuel : Nat) (s : CFState), CFInv maxd s →
    CFInv maxd (cfLoop maxd fuel s) := by
  intro fuel
  induction fuel with
  | zero => intro s h; exact h
  | succ fuel ih =>
    intro s h
    unfold cfLoop
    by_cases hd : s.d ≤ 0
    · rw [if_pos hd]; exact h
    · rw [if_neg hd]
      by_cases hq : maxd < s.q0 + s.n / s.d * s.q1
      · rw [if_pos hq]; exact h
      · rw [if_neg hq]
        apply ih
        obtain ⟨h1, h2, h3, h4, h5, h6⟩ := h
        have hd' : 0 < s.d := by omega
        have ha : 1 ≤ s.n / s.d := by
          rw [Int.le_ediv_iff_mul_le hd']
          omega
        have hmod := Int.emod_nonneg s.n (by omega : s.d ≠ 0)
        have hmodlt := Int.emod_lt_of_pos s.n hd'
        have hsub : s.n - s.n / s.d * s.d = s.n % s.d := by
          rw [Int.emod_def]
          ring
        push_neg at hq
        refine ⟨?_, ?_, ?_, ?_, ?_, ?_⟩
        · show 1 ≤ s.q0 + s.n / s.d * s.q1
          nlinarith
        · show 0 ≤ s.q1
          omega
        · show s.q1 ≤ maxd
          exact h4
        · show s.q0 + s.n / s.d * s.q1 ≤ maxd
          exact hq
        · show 0 ≤ s.n - s.n / s.d * s.d
          rw [hsub]
          exact hmod
        · show s.n - s.n / s.d * s.d ≤ s.d
          rw [hsub]
          omega

/-- One loop step preserves the sign invariant together with the main
invariant. -/
theorem cfLoop_sign_inv (maxd : Int) : ∀ (fuel : Nat) (s : CFState),
    CFInv maxd s → CFSignInv s → CFSignInv (cfLoop maxd fuel s) := by
  intro fuel
  induction fuel with
  | zero => intro s _ h; exact h
  | succ fuel ih =>
    intro s hinv hs
    unfold cfLoop
    by_cases hd : s.d ≤ 0
    · rw [if_pos hd]; exact hs
    · rw [if_neg hd]
      by_cases hq : maxd < s.q0 + s.n / s.d * s.q1
      · rw [if_pos hq]; exact hs
      · rw [if_neg hq]
        obtain ⟨h1, h2, h3, h4, h5, h6⟩ := hinv
        have hd' : 0 < s.d := by omega
        have ha : 1 ≤ s.n / s.d := by
          rw [Int.le_ediv_iff_mul_le hd']
          omega
        have hmod := Int.emod_nonneg s.n (by omega : s.d ≠ 0)
        have hmodlt := Int.emod_lt_of_pos s.n hd'
        have hsub : s.n - s.n / s.d * s.d = s.n % s.d := by
          rw [Int.emod_def]
          ring
        push_neg at hq
        refine ih _ ⟨?_, ?_, ?_, ?_, ?_, ?_⟩ ?_
        · show 1 ≤ s.q0 + s.n / s.d * s.q1
          nlinarith
        · show 0 ≤ s.q1
          omega
        · show s.q1 ≤ maxd
          exact h4
        · show s.q0 + s.n / s.d * s.q1 ≤ maxd
          exact hq
        · show 0 ≤ s.n - s.n / s.d * s.d
          rw [hsub]
          exact hmod
        · show s.n - s.n / s.d * s.d ≤ s.d
          rw [hsub]
          omega
        · rcases hs with ⟨hp0, hq0, hp1⟩ | ⟨hp0, hp1⟩
          · right
            refine ⟨?_, ?_⟩
            · show s.p1 ≤ 0
              omega
            · show s.p0 + s.n / s.d * s.p1 ≤ 0
              nlinarith
          · right
            refine ⟨?_, ?_⟩
            · show s.p1 ≤ 0
              omega
            · show s.p0 + s.n / s.d * s.p1 ≤ 0
              nlinarith


/-- The seed state forces one iteration: the first candidate denominator is
q0 + a*q1 = 1, which never exceeds a bound of at least one. -/
theorem cfLoop_start_step (maxd : Int) (fuel : Nat) (N D : Int)
    (hmax : 1 ≤ maxd) (hD : 1 ≤ D) :
    cfLoop maxd (fuel + 1) ⟨0, 1, 1, 0, N, D⟩ =
      cfLoop maxd fuel ⟨1, 0, 0 + N / D * 1, 1 + N / D * 0, D, N - N / D * D⟩ := by
  conv_lhs => rw [cfLoop]
  rw [if_neg (by omega : ¬ D ≤ 0)]
  rw [if_neg (show ¬ maxd < 1 + N / D * 0 by simp only [mul_zero, add_zero]; omega)]

/-- The state reached after the forced first iteration satisfies the loop
invariant. -/
theorem cfStart_inv (maxd N D : Int) (hmax : 1 ≤ maxd) (hD : 1 ≤ D) :
    CFInv maxd ⟨1, 0, 0 + N / D * 1, 1 + N / D * 0, D, N - N / D * D⟩ := by
  have hmod := Int.emod_nonneg N (by omega : D ≠ 0)
  have hmodlt := Int.emod_lt_of_pos N (by omega : 0 < D)
  have hsub : N - N / D * D = N % D := by
    rw [Int.emod_def]
    ring
  refine ⟨?_, ?_, ?_, ?_, ?_, ?_⟩
  · show (1 : Int) ≤ 1 + N / D * 0
    simp
  · show (0 : Int) ≤ 0
    exact le_refl 0
  · show (0 : Int) ≤ maxd
    omega
  · show 1 + N / D * 0 ≤ maxd
    simp only [mul_zero, add_zero]
    exact hmax
  · show 0 ≤ N - N / D * D
    rw [hsub]
    exact hmod
  · show N - N / D * D ≤ D
    rw [hsub]
    omega

/-- For a negative numerator the state after the forced first iteration
satisfies the sign invariant (its middle convergent numerator N / D is
negative because the division floors). -/
theorem cfStart_sign (N D : Int) (hD : 1 ≤ D) (hN : N ≤ -1) :
    CFSignInv ⟨1, 0, 0 + N / D * 1, 1 + N / D * 0, D, N - N / D * D⟩ := by
  left
  refine ⟨rfl, rfl, ?_⟩
  show 0 + N / D * 1 ≤ -1
  have hneg : N / D < 0 := Int.ediv_neg' (by omega) (by omega)
  simp only [zero_add, mul_one]
  omega

/-- The candidate chosen after the loop has denominator at most the bound,
provided the final state satisfies the loop invariant. -/
theorem cfSelect_den_le (maxd : Int) (r : Rat) (s : CFState) (hinv : CFInv maxd s) :
    ((cfSelect maxd r s).den : Int) ≤ maxd := by
  obtain ⟨h1, h2, h3, h4, _, _⟩ := hinv
  have hq1 : (0 : Int) < s.q1 := by omega
  simp only [cfSelect]
  set k := (maxd - s.q0) / s.q1 with hk
  have hk0 : 0 ≤ k := Int.ediv_nonneg (by omega) (by omega)
  have hkq : k * s.q1 ≤ maxd - s.q0 := by
    have hmod := Int.emod_nonneg (maxd - s.q0) (by omega : s.q1 ≠ 0)
    rw [Int.emod_def, ← hk] at hmod
    linarith
  have hd1pos : 1 ≤ s.q0 + k * s.q1 := by
    by_cases hq0 : s.q0 = 0
    · have hk1 : 1 ≤ k := by
        rw [hk, hq0, sub_zero, Int.le_ediv_iff_mul_le hq1]
        linarith
      nlinarith
    · have hq0p : 1 ≤ s.q0 := by omega
      nlinarith [mul_nonneg hk0 (le_of_lt hq1)]
  have hcast1 : (((s.q0 + k * s.q1).toNat : Int)) = s.q0 + k * s.q1 :=
    Int.toNat_of_nonneg (by linarith)
  have hb1 : ((mkRat (s.p0 + k * s.p1) (s.q0 + k * s.q1).toNat).den : Int) ≤ maxd := by
    have hdvd : ((mkRat (s.p0 + k * s.p1) (s.q0 + k * s.q1).toNat).den : Int) ∣
        (((s.q0 + k * s.q1).toNat : Nat) : Int) := by
      rw [Rat.mkRat_eq_divInt]
      exact Rat.den_dvd _ _
    have hle := Int.le_of_dvd (by rw [hcast1]; linarith) hdvd
    rw [hcast1] at hle
    linarith
  have hcast2 : ((s.q1.toNat : Int)) = s.q1 := Int.toNat_of_nonneg (by omega)
  have hb2 : ((mkRat s.p1 s.q1.toNat).den : Int) ≤ maxd := by
    have hdvd : ((mkRat s.p1 s.q1.toNat).den : Int) ∣ ((s.q1.toNat : Nat) : Int) := by
      rw [Rat.mkRat_eq_divInt]
      exact Rat.den_dvd _ _
    have hle := Int.le_of_dvd (by rw [hcast2]; omega) hdvd
    rw [hcast2] at hle
    omega
  by_cases hc : ratAbs (ratSub (mkRat s.p1 s.q1.toNat) r) ≤
      ratAbs (ratSub (mkRat (s.p0 + k * s.p1) (s.q0 + k * s.q1).toNat) r)
  · rw [if_pos hc]
    exact hb2
  · rw [if_neg hc]
    exact hb1

/-- The candidate chosen after the loop has a non-positive numerator when the
final state satisfies both invariants. -/
theorem cfSelect_nonpos (maxd : Int) (r : Rat) (s : CFState) (hinv : CFInv maxd s)
    (hsign : CFSignInv s) : (cfSelect maxd r s).num ≤ 0 := by
  have hmain : cfSelect maxd r s ≤ 0 := by
    obtain ⟨h1, h2, h3, h4, _, _⟩ := hinv
    have hq1 : (0 : Int) < s.q1 := by omega
    simp only [cfSelect]
    set k := (maxd - s.q0) / s.q1 with hk
    have hk0 : 0 ≤ k := Int.ediv_nonneg (by omega) (by omega)
    have hd1pos : 1 ≤ s.q0 + k * s.q1 := by
      by_cases hq0 : s.q0 = 0
      · have hk1 : 1 ≤ k := by
          rw [hk, hq0, sub_zero, Int.le_ediv_iff_mul_le hq1]
          linarith
        nlinarith
      · have hq0p : 1 ≤ s.q0 := by omega
        nlinarith [mul_nonneg hk0 (le_of_lt hq1)]
    have hp1 : s.p1 ≤ 0 := by
      rcases hsign with ⟨_, _, hp⟩ | ⟨_, hp⟩ <;> omega
    have hnum1 : s.p0 + k * s.p1 ≤ 0 := by
      rcases hsign with ⟨hp0, hq0, hp⟩ | ⟨hp0, hp⟩
      · have hk1 : 1 ≤ k := by
          rw [hk, hq0, sub_zero, Int.le_ediv_iff_mul_le hq1]
          linarith
        nlinarith
      · nlinarith [mul_nonneg hk0 (by omega : (0 : Int) ≤ -s.p1)]
    have hcast1 : (((s.q0 + k * s.q1).toNat : Int)) = s.q0 + k * s.q1 :=
      Int.toNat_of_nonneg (by linarith)
    have hcast2 : ((s.q1.toNat : Int)) = s.q1 := Int.toNat_of_nonneg (by omega)
    have hb2 : mkRat s.p1 s.q1.toNat ≤ 0 := by
      rw [Rat.mkRat_eq_divInt]
      have hcomp : Rat.divInt s.p1 (s.q1.toNat : Int) ≤ Rat.divInt 0 (s.q1.toNat : Int) := by
        rw [Rat.divInt_le_divInt (by omega) (by omega)]
        nlinarith
      rw [Rat.zero_divInt] at hcomp
      exact hcomp
    have hb1 : mkRat (s.p0 + k * s.p1) (s.q0 + k * s.q1).toNat ≤ 0 := by
      rw [Rat.mkRat_eq_divInt]
      have hcomp : Rat.divInt (s.p0 + k * s.p1) ((s.q0 + k * s.q1).toNat : Int) ≤
          Rat.divInt 0 ((s.q0 + k * s.q1).toNat : Int) := by
        rw [Rat.divInt_le_divInt (by omega) (by omega)]
        nlinarith
      rw [Rat.zero_divInt] at hcomp
      exact hcomp
    by_cases hc : ratAbs (ratSub (mkRat s.p1 s.q1.toNat) r) ≤
        ratAbs (ratSub (mkRat (s.p0 + k * s.p1) (s.q0 + k * s.q1).toNat) r)
    · rw [if_pos hc]
      exact hb2
    · rw [if_neg hc]
      exact hb1
  exact Rat.num_nonpos.mpr hmain

/-- limit_denominator never returns a fraction with denominator above the
bound (for a bound of at least one). -/
theorem limit_denominator_den_le (r : Rat) (maxd : Int) (hmax : 1 ≤ maxd) :
    ((limit_denominator r maxd).den : Int) ≤ maxd := by
  unfold limit_denominator
  by_cases h : (r.den : Int) ≤ maxd
  · rw [if_pos h]
    exact h
  · rw [if_neg h]
    apply cfSelect_den_le maxd r _ ?_
    have hD : (1 : Int) ≤ (r.den : Int) := by exact_mod_cast r.den_pos
    rw [show (64 : Nat) = 63 + 1 from rfl, cfLoop_start_step maxd 63 r.num (r.den : Int) hmax hD]
    exact cfLoop_inv maxd 63 _ (cfStart_inv maxd r.num (r.den : Int) hmax hD)

/-- For a non-positive input, limit_denominator returns a fraction with a
non-positive numerator (for a bound of at least one). -/
theorem limit_denominator_num_nonpos {r : Rat} {maxd : Int} (hmax : 1 ≤ maxd)
    (hr : r ≤ 0) : (limit_denominator r maxd).num ≤ 0 := by
  unfold limit_denominator
  by_cases h : (r.den : Int) ≤ maxd
  · rw [if_pos h]
    exact Rat.num_nonpos.mpr hr
  · rw [if_neg h]
    have hD : (1 : Int) ≤ (r.den : Int) := by exact_mod_cast r.den_pos
    have hN : r.num ≤ -1 := by
      have hle : r.num ≤ 0 := Rat.num_nonpos.mpr hr
      rcases lt_or_eq_of_le hle with hlt | heq
      · omega
      · exfalso
        have hr0 : r = 0 := Rat.num_eq_zero.mp heq
        rw [hr0] at h
        exact h (by simpa using hmax)
    apply cfSelect_nonpos maxd r _ ?_ ?_
    · rw [show (64 : Nat) = 63 + 1 from rfl,
        cfLoop_start_step maxd 63 r.num (r.den : Int) hmax hD]
      exact cfLoop_inv maxd 63 _ (cfStart_inv maxd r.num (r.den : Int) hmax hD)
    · rw [show (64 : Nat) = 63 + 1 from rfl,
        cfLoop_start_step maxd 63 r.num (r.den : Int) hmax hD]
      exact cfLoop_sign_inv maxd 63 _ (cfStart_inv maxd r.num (r.den : Int) hmax hD)
        (cfStart_sign r.num (r.den : Int) hD hN)

/-- The output rules of the spec for fractional, stated from its words: split
off the truncated whole part, approximate the remainder with denominator at
most 1000, and emit just the whole number when the approximation is exactly
0/1 and the whole part is non-zero, the bare fraction when the whole part is
zero, and the mixed form otherwise. -/
def fractionalSpec (q : Rat) : PyVal :=
  let w := ratTrunc q
  let f := limit_denominator (ratSubInt q w) 1000
  if f.num = 0 ∧ ((f.den : Int) = 1 ∧ w ≠ 0) then .str (intToString w)
  else if w = 0 then .str (intToString f.num ++ "/" ++ intToString (f.den : Int))
  else .str (intToString w ++ " " ++ intToString f.num ++ "/" ++ intToString ((f.den : Int)))

/-- C6: for every input accepted by float(), fractional approximates the
remainder by a reduced rational with denominator at most 1000 and emits the
whole number, the bare fraction, or the mixed form according to the output
rules; in particular fractional(1) = "1", fractional(0.5) = "1/2", and
fractional(1.3) has whole part 1 and remainder approximation exactly 3/10
(denominator 10 ≤ 1000). -/
theorem fractional_rules :
    (∀ (v : PyVal) (q : Rat), pyFloat v = some q →
      ((limit_denominator (ratSubInt q (ratTrunc q)) 1000).den : Int) ≤ 1000 ∧
      fractional v = fractionalSpec q) ∧
    fractional (.int 1) = .str "1" ∧
    fractional (.float (mkRat 1 2)) = .str "1/2" ∧
    fractional (.float (mkRat 13 10)) = .str "1 3/10" ∧
    ratTrunc (mkRat 13 10) = 1 ∧
    limit_denominator (ratSubInt (mkRat 13 10) (ratTrunc (mkRat 13 10))) 1000 = mkRat 3 10 ∧
    ((mkRat 3 10 : Rat).den : Int) ≤ 1000 := by
  refine ⟨?_, by decide, by decide, by decide, by decide, by decide, by decide⟩
  intro v q h
  refine ⟨limit_denominator_den_le _ 1000 (by norm_num), ?_⟩
  unfold fractional fractionalSpec
  rw [h]
  dsimp only
  by_cases h1 : (limit_denominator (ratSubInt q (ratTrunc q)) 1000).num = 0 <;>
    by_cases h2 : ((limit_denominator (ratSubInt q (ratTrunc q)) 1000).den : Int) = 1 <;>
    by_cases h3 : ratTrunc q = 0 <;>
    simp [h1, h2, h3]

/-- Concrete instantiation of the universal part of fractional_rules at the
input 0.5. -/
theorem fractional_rules_witness :
    pyFloat (PyVal.float (mkRat 1 2)) = some (mkRat 1 2) ∧
    (((limit_denominator (ratSubInt (mkRat 1 2) (ratTrunc (mkRat 1 2))) 1000).den : Int) ≤ 1000 ∧
     fractional (PyVal.float (mkRat 1 2)) = fractionalSpec (mkRat 1 2)) :=
  ⟨by decide, fractional_rules.1 (PyVal.float (mkRat 1 2)) (mkRat 1 2) (by decide)⟩

/-- C10 counterexample: two negative non-integer inputs that fractional does
not render with a minus sign on both the whole part and the numerator:
-0.5 has a zero whole part and prints only "-1/2" (no space, so no two-part
mixed form), and -5.0000001 has its remainder approximated by 0/1 and prints
only "-5" (no fraction at all, no slash). -/
theorem fractional_negative_not_always_mixed :
    fractional (PyVal.float (mkRat (-1) 2)) = .str "-1/2" ∧
    mkRat (-1) 2 < 0 ∧
    1 < (mkRat (-1) 2 : Rat).den ∧
    (("-1/2").data.contains ' ') = false ∧
    fractional (PyVal.float (Rat.divInt (-50000001) 10000000)) = .str "-5" ∧
    Rat.divInt (-50000001) 10000000 < 0 ∧
    1 < (Rat.divInt (-50000001) 10000000).den ∧
    (("-5").data.contains '/') = false := by decide

/-- C10 (amended): for a negative float input whose truncated whole part and
remainder approximation are both non-zero, fractional emits the mixed form
with the minus sign appearing on both the whole part and the numerator; in
the remaining cases (zero whole part, or a remainder approximated by 0/1)
only one of the two minus signs appears, as the counterexample records. -/
theorem fractional_negative_mixed (v : PyVal) (q : Rat)
    (hv : pyFloat v = some q) (hq : q < 0) (hw : ratTrunc q ≠ 0)
    (hf : (limit_denominator (ratSubInt q (ratTrunc q)) 1000).num ≠ 0) :
    ratTrunc q < 0 ∧
    (limit_denominator (ratSubInt q (ratTrunc q)) 1000).num < 0 ∧
    fractional v = .str (intToString (ratTrunc q) ++ " " ++
      intToString (limit_denominator (ratSubInt q (ratTrunc q)) 1000).num ++ "/" ++
      intToString ((limit_denominator (ratSubInt q (ratTrunc q)) 1000).den : Int)) := by
  have hnum : ¬ (0 ≤ q.num) := fun hc => absurd (Rat.num_nonneg.mp hc) (not_le.mpr hq)
  have htr : ratTrunc q = -(-q).floor := by
    unfold ratTrunc
    rw [if_neg hnum]
  have hfl : (((-q).floor : Int) : Rat) ≤ -q := Rat.le_floor.mp (le_refl _)
  have hfl0 : 0 ≤ (-q).floor := Rat.le_floor.mpr (by push_cast; linarith)
  have hwneg : ratTrunc q < 0 := by
    have hle : ratTrunc q ≤ 0 := by
      rw [htr]
      omega
    exact lt_of_le_of_ne hle hw
  have hrem : ratSubInt q (ratTrunc q) ≤ 0 := by
    rw [ratSubInt_eq, htr]
    push_cast
    linarith
  have hfnum : (limit_denominator (ratSubInt q (ratTrunc q)) 1000).num < 0 := by
    have h0 : (limit_denominator (ratSubInt q (ratTrunc q)) 1000).num ≤ 0 :=
      limit_denominator_num_nonpos (by norm_num) hrem
    omega
  refine ⟨hwneg, hfnum, ?_⟩
  unfold fractional
  rw [hv]
  dsimp only
  rw [if_neg (show ¬ (ratTrunc q ≠ 0 ∧
      (limit_denominator (ratSubInt q (ratTrunc q)) 1000).num = 0 ∧
      ((limit_denominator (ratSubInt q (ratTrunc q)) 1000).den : Int) = 1)
      from fun hc => hf hc.2.1)]
  rw [if_neg hw]

/-- Concrete instantiation of fractional_negative_mixed at -1.5: the output
is "-1 -1/2", minus sign on both parts. -/
theorem fractional_negative_mixed_witness :
    (pyFloat (PyVal.float (mkRat (-3) 2)) = some (mkRat (-3) 2) ∧
     mkRat (-3) 2 < 0 ∧ ratTrunc (mkRat (-3) 2) ≠ 0 ∧
     (limit_denominator (ratSubInt (mkRat (-3) 2) (ratTrunc (mkRat (-3) 2))) 1000).num ≠ 0) ∧
    (ratTrunc (mkRat (-3) 2) < 0 ∧
     (limit_denominator (ratSubInt (mkRat (-3) 2) (ratTrunc (mkRat (-3) 2))) 1000).num < 0 ∧
     fractional (PyVal.float (mkRat (-3) 2)) = .str (intToString (ratTrunc (mkRat (-3) 2)) ++
       " " ++
       intToString (limit_denominator (ratSubInt (mkRat (-3) 2)
         (ratTrunc (mkRat (-3) 2))) 1000).num ++ "/" ++
       intToString ((limit_denominator (ratSubInt (mkRat (-3) 2)
         (ratTrunc (mkRat (-3) 2))) 1000).den : Int))) :=
  ⟨⟨by decide, by decide, by decide, by decide⟩,
   fractional_negative_mixed (PyVal.float (mkRat (-3) 2)) (mkRat (-3) 2)
     (by decide) (by decide) (by decide) (by decide)⟩

/-- The superscript glyph table exponents of scientific, as a function: the
digits 0-9 and the signs + and - map to their Unicode superscript glyphs.
Any other character would raise KeyError in Python; the formatter below only
ever produces digits and signs, so the empty-string default is unreachable. -/
def superGlyph (c : Char) : String :=
  if c = '0' then "⁰" else if c = '1' then "¹" else if c = '2' then "²"
  else if c = '3' then "³" else if c = '4' then "⁴" else if c = '5' then "⁵"
  else if c = '6' then "⁶" else if c = '7' then "⁷" else if c = '8' then "⁸"
  else if c = '9' then "⁹" else if c = '+' then "⁺" else if c = '-' then "⁻"
  else ""

/-- Python's substring test "ab in s" for a two-character pattern. -/
def strContains2 (a b : Char) : List Char → Bool
  | [] => false
  | [_] => false
  | c :: d :: t => if c = a ∧ d = b then true else strContains2 a b (d :: t)

/-- Python's s.replace("ab", rep) for a two-character pattern: scan left to
right, replacing every non-overlapping occurrence. -/
def replace2 (a b : Char) (rep : List Char) : List Char → List Char
  | [] => []
  | [c] => [c]
  | c :: d :: t =>
    if c = a ∧ d = b then rep ++ replace2 a b rep t else c :: replace2 a b rep (d :: t)

/-- Mantissa and exponent of Python's "{:.pe}" formatting of a positive
value: scale the value so that p decimals of the mantissa sit left of the
point, round with ties to even, and if rounding carried all the way to 1000…0
bump the exponent.  Returns (r, e) with r the p+1 mantissa digits read as an
integer. -/
def sciDigits (x : Rat) (p : Nat) : Int × Int :=
  let e := ratExp10 x
  let r := roundHalfEven (ratScale x ((p : Int) - e))
  if r = 10 ^ (p + 1) then (10 ^ p, e + 1) else (r, e)

/-- The mantissa part of the formatted string: leading digit, then a point
and exactly p digits (no point when p = 0, as Python prints). -/
def part1String (r : Int) (p : Nat) : String :=
  match natDigits r.toNat with
  | [] => "0"
  | d :: rest => if p = 0 then String.mk [d] else String.mk [d] ++ "." ++ String.mk rest

/-- The two halves of n.split("e") for the formatted non-negative value: the
mantissa text and the exponent text (zero formats as 0.00…e+00). -/
def sciParts (x : Rat) (p : Nat) : String × List Char :=
  if x = 0 then
    ((if p = 0 then "0" else "0." ++ String.mk (List.replicate p '0')), ['+', '0', '0'])
  else
    let re := sciDigits x p
    (part1String re.1 p, expChars re.2)

/-- The two replacement lines of scientific applied to the exponent text:
replace "-0" by "-" when present, then "+0" by the empty string when
present. -/
def normExp (part2 : List Char) : List Char :=
  let p2a := if strContains2 '-' '0' part2 then replace2 '-' '0' ['-'] part2 else part2
  if strContains2 '+' '0' p2a then replace2 '+' '0' [] p2a else p2a

/-- scientific from number.py.  If str(value) contains a dash, value is
replaced by that string with every dash removed and the negative flag is set
(so a failure after this point returns the mutated string, not the input).
A string value is then parsed by float() — failure returns the current
value — numbers format directly, and formatting None raises TypeError,
returning the input.  The formatted mantissa and exponent are split, the
exponent text is normalized by the two substring replacements, and every
character is mapped through the superscript table, with a superscript minus
prefixed when the negative flag was set. -/
def scientific (value : PyVal) (precision : Nat := 2) : PyVal :=
  let s := pyStr value
  let negative := s.data.contains '-'
  let value1 : PyVal := if negative then .str (String.mk (s.data.filter (fun c => c ≠ '-')))
    else value
  let xOpt : Option Rat :=
    match value1 with
    | .str t => parseFloatChars t.data
    | .int n => some (Rat.divInt n 1)
    | .float q => some q
    | .none => Option.none
  match xOpt with
  | Option.none => value1
  | some x =>
    let pr := sciParts x precision
    let part2 := normExp pr.2
    .str (pr.1 ++ " x 10" ++ (if negative then "⁻" else "") ++
      String.join (part2.map superGlyph))

/-- The exponent normalization as the amended specification words it: a
single-digit non-negative exponent renders unsigned, a longer non-negative
exponent keeps its plus sign, and a negative exponent renders as a minus
followed by the magnitude digits. -/
def normExpSpec (e : Int) : List Char :=
  if 0 ≤ e then (if e ≤ 9 then natDigits e.toNat else '+' :: natDigits e.toNat)
  else '-' :: natDigits (-e).toNat

/-- A number below ten prints as its single digit. -/
theorem natDigits_single {n : Nat} (h : n < 10) : natDigits n = [digitChar n] := by
  unfold natDigits natDigitsAux
  rw [if_pos h]

/-- With enough fuel, a positive number's digits start with a non-zero
digit. -/
theorem natDigitsAux_head_pos : ∀ (fuel n : Nat), n < fuel → 1 ≤ n →
    ∃ d t, natDigitsAux fuel n = d :: t ∧ d ≠ '0' ∧ d.isDigit = true := by
  intro fuel
  induction fuel with
  | zero => intro n h; omega
  | succ fuel ih =>
    intro n hlt h1
    by_cases h10 : n < 10
    · refine ⟨digitChar n, [], ?_, ?_, digitChar_isDigit h10⟩
      · unfold natDigitsAux
        rw [if_pos h10]
      · interval_cases n <;> decide
    · have hq1 : 1 ≤ n / 10 := by omega
      have hqlt : n / 10 < fuel := by omega
      obtain ⟨d, t, heq, hd0, hdig⟩ := ih (n / 10) hqlt hq1
      refine ⟨d, t ++ [digitChar (n % 10)], ?_, hd0, hdig⟩
      unfold natDigitsAux
      rw [if_neg h10, heq]
      rfl

/-- A positive number's digits start with a non-zero digit. -/
theorem natDigits_head_pos (n : Nat) (h1 : 1 ≤ n) :
    ∃ d t, natDigits n = d :: t ∧ d ≠ '0' ∧ d.isDigit = true :=
  natDigitsAux_head_pos (n + 1) n (by omega) h1

/-- A number of at least ten has at least two digits, the first one
non-zero. -/
theorem natDigits_two_of_ten {n : Nat} (h : 10 ≤ n) :
    ∃ d t, natDigits n = d :: t ∧ t ≠ [] ∧ d ≠ '0' := by
  have hq1 : 1 ≤ n / 10 := by omega
  have hqlt : n / 10 < n := by omega
  obtain ⟨d, t, heq, hd0, _⟩ := natDigitsAux_head_pos n (n / 10) hqlt hq1
  refine ⟨d, t ++ [digitChar (n % 10)], ?_, by simp, hd0⟩
  unfold natDigits natDigitsAux
  rw [if_neg (by omega : ¬ n < 10), heq]
  rfl

/-- No two-character pattern is found when its first character never
occurs. -/
theorem strContains2_false_of_ne (a b : Char) :
    ∀ (l : List Char), (∀ c ∈ l, c ≠ a) → strContains2 a b l = false
  | [] => fun _ => rfl
  | [_] => fun _ => rfl
  | c :: d :: t => fun h => by
    show (if c = a ∧ d = b then true else strContains2 a b (d :: t)) = false
    rw [if_neg (fun hc => (h c (by simp)) hc.1)]
    exact strContains2_false_of_ne a b (d :: t) (fun x hx => h x (by simp [hx]))

/-- The normalization leaves a plus followed by a non-zero digit and further
digits unchanged. -/
theorem normExp_plus {d : Char} {t : List Char} (hd : d ≠ '0')
    (hall : ∀ c ∈ d :: t, c.isDigit = true) :
    normExp ('+' :: d :: t) = '+' :: d :: t := by
  have h1 : strContains2 '-' '0' ('+' :: d :: t) = false := by
    show (if ('+' : Char) = '-' ∧ d = '0' then true else strContains2 '-' '0' (d :: t)) = false
    rw [if_neg (fun hc => absurd hc.1 (by decide))]
    exact strContains2_false_of_ne _ _ _
      (fun c hc => ne_of_isDigit (hall c hc) (by decide))
  have h2 : strContains2 '+' '0' ('+' :: d :: t) = false := by
    show (if ('+' : Char) = '+' ∧ d = '0' then true else strContains2 '+' '0' (d :: t)) = false
    rw [if_neg (fun hc => hd hc.2)]
    exact strContains2_false_of_ne _ _ _
      (fun c hc => ne_of_isDigit (hall c hc) (by decide))
  unfold normExp
  simp only [h1, Bool.false_eq_true, if_false]
  rw [h2]
  simp

/-- The normalization leaves a minus followed by a non-zero digit and further
digits unchanged. -/
theorem normExp_minus {d : Char} {t : List Char} (hd : d ≠ '0')
    (hall : ∀ c ∈ d :: t, c.isDigit = true) :
    normExp ('-' :: d :: t) = '-' :: d :: t := by
  have h1 : strContains2 '-' '0' ('-' :: d :: t) = false := by
    show (if ('-' : Char) = '-' ∧ d = '0' then true else strContains2 '-' '0' (d :: t)) = false
    rw [if_neg (fun hc => hd hc.2)]
    exact strContains2_false_of_ne _ _ _
      (fun c hc => ne_of_isDigit (hall c hc) (by decide))
  have h2 : strContains2 '+' '0' ('-' :: d :: t) = false := by
    show (if ('-' : Char) = '+' ∧ d = '0' then true else strContains2 '+' '0' (d :: t)) = false
    rw [if_neg (fun hc => absurd hc.1 (by decide))]
    exact strContains2_false_of_ne _ _ _
      (fun c hc => ne_of_isDigit (hall c hc) (by decide))
  unfold normExp
  simp only [h1, Bool.false_eq_true, if_false]
  rw [h2]
  simp

/-- On the exponent text the two replacements implement exactly the amended
normalization rule. -/
theorem normExp_expChars (e : Int) : normExp (expChars e) = normExpSpec e := by
  by_cases h0 : 0 ≤ e
  · by_cases h9 : e ≤ 9
    · have hds : natDigits e.toNat = [digitChar e.toNat] := natDigits_single (by omega)
      have hexp : expChars e = ['+', '0', digitChar e.toNat] := by
        unfold expChars
        rw [if_neg (by omega : ¬ e < 0), if_neg (by omega : ¬ e < 0), hds]
        rfl
      rw [hexp]
      unfold normExpSpec
      rw [if_pos h0, if_pos h9, hds]
      rfl
    · have h10 : 10 ≤ e.toNat := by omega
      obtain ⟨d, t, heq, hne, hd0⟩ := natDigits_two_of_ten h10
      have hlen : ¬ (d :: t).length < 2 := by
        cases t with
        | nil => exact absurd rfl hne
        | cons x xs => simp
      have hexp : expChars e = '+' :: d :: t := by
        unfold expChars
        rw [if_neg (by omega : ¬ e < 0), if_neg (by omega : ¬ e < 0), heq]
        dsimp only
        rw [if_neg hlen]
      rw [hexp, normExp_plus hd0 (by rw [← heq]; exact natDigits_all_digit _)]
      unfold normExpSpec
      rw [if_pos h0, if_neg h9, heq]
  · by_cases h9 : (-e).toNat < 10
    · have h1 : 1 ≤ (-e).toNat := by omega
      have hds : natDigits (-e).toNat = [digitChar (-e).toNat] := natDigits_single h9
      have hexp : expChars e = ['-', '0', digitChar (-e).toNat] := by
        unfold expChars
        rw [if_pos (by omega : e < 0), if_pos (by omega : e < 0), hds]
        rfl
      rw [hexp]
      unfold normExpSpec
      rw [if_neg h0, hds]
      rfl
    · have h10 : 10 ≤ (-e).toNat := by omega
      obtain ⟨d, t, heq, hne, hd0⟩ := natDigits_two_of_ten h10
      have hlen : ¬ (d :: t).length < 2 := by
        cases t with
        | nil => exact absurd rfl hne
        | cons x xs => simp
      have hexp : expChars e = '-' :: d :: t := by
        unfold expChars
        rw [if_pos (by omega : e < 0), if_pos (by omega : e < 0), heq]
        dsimp only
        rw [if_neg hlen]
      rw [hexp, normExp_minus hd0 (by rw [← heq]; exact natDigits_all_digit _)]
      unfold normExpSpec
      rw [if_neg h0, heq]

/-- The character of a digit decodes back to the digit. -/
theorem digitChar_toNat {n : Nat} (h : n < 10) : (digitChar n).toNat - 48 = n := by
  interval_cases n <;> decide

/-- The digit fold from an arbitrary accumulator. -/
theorem foldl_digits (l : List Char) : ∀ acc : Nat,
    l.foldl (fun a c => 10 * a + (c.toNat - 48)) acc =
      acc * 10 ^ l.length + digitsToNat l := by
  induction l with
  | nil =>
    intro acc
    simp [digitsToNat]
  | cons c t ih =>
    intro acc
    show t.foldl _ (10 * acc + (c.toNat - 48)) = acc * 10 ^ (c :: t).length + digitsToNat (c :: t)
    rw [ih]
    have hz : digitsToNat (c :: t) = (c.toNat - 48) * 10 ^ t.length + digitsToNat t := by
      show t.foldl _ (10 * 0 + (c.toNat - 48)) = _
      rw [ih]
      simp
    rw [hz]
    simp only [List.length_cons, pow_succ]
    ring

/-- With enough fuel, the digits of a number decode back to the number. -/
theorem digitsToNat_natDigitsAux : ∀ (fuel n : Nat), n < fuel →
    digitsToNat (natDigitsAux fuel n) = n := by
  intro fuel
  induction fuel with
  | zero =>
    intro n h
    omega
  | succ fuel ih =>
    intro n h
    unfold natDigitsAux
    by_cases h10 : n < 10
    · rw [if_pos h10]
      show List.foldl _ 0 [digitChar n] = n
      show 10 * 0 + ((digitChar n).toNat - 48) = n
      rw [digitChar_toNat h10]
      omega
    · rw [if_neg h10]
      unfold digitsToNat
      rw [List.foldl_append]
      show 10 * (List.foldl _ 0 (natDigitsAux fuel (n / 10))) +
        ((digitChar (n % 10)).toNat - 48) = n
      have hpre : List.foldl (fun a c => 10 * a + (c.toNat - 48)) 0
          (natDigitsAux fuel (n / 10)) = n / 10 := ih (n / 10) (by omega)
      rw [hpre, digitChar_toNat (by omega)]
      omega

/-- The digits of a number decode back to the number. -/
theorem digitsToNat_natDigits (n : Nat) : digitsToNat (natDigits n) = n :=
  digitsToNat_natDigitsAux (n + 1) n (by omega)

/-- float() on a pure digit run returns its value over denominator one. -/
theorem parseFloatChars_digits_val {c : Char} {t : List Char}
    (hd : ∀ x ∈ c :: t, x.isDigit = true) :
    parseFloatChars (c :: t) = some (Rat.divInt ((digitsToNat (c :: t) : Nat) : Int) 1) := by
  have hsp : splitSign (c :: t) = (false, c :: t) := splitSign_digit t (hd c (by simp))
  unfold parseFloatChars
  rw [hsp]
  dsimp only
  rw [takeWhile_eq_self_of_all hd, dropWhile_eq_nil_of_all hd]
  dsimp only
  rw [if_neg (by simp)]
  norm_num
  rfl

/-- float() parses the printed digits of a number back to the number. -/
theorem parseFloatChars_natDigits (m : Nat) :
    parseFloatChars (natDigits m) = some (Rat.divInt (m : Int) 1) := by
  rcases heq : natDigits m with _ | ⟨c, t⟩
  · exact absurd heq (natDigits_ne_nil m)
  · have hd : ∀ x ∈ c :: t, x.isDigit = true := by
      rw [← heq]
      exact natDigits_all_digit m
    rw [parseFloatChars_digits_val hd, ← heq, digitsToNat_natDigits]

/-- The digits of a number contain no dash. -/
theorem natDigits_no_dash (m : Nat) : ∀ c ∈ natDigits m, c ≠ '-' :=
  fun c hc => ne_of_isDigit (natDigits_all_digit m c hc) (by decide)

/-- A character list without dashes reports contains '-' as false. -/
theorem contains_dash_false {l : List Char} (h : ∀ c ∈ l, c ≠ '-') :
    l.contains '-' = false := by
  by_contra hc
  have ht : l.contains '-' = true := by
    revert hc
    cases l.contains '-' <;> simp
  have hm : '-' ∈ l := by
    simpa [List.contains] using ht
  exact h _ hm rfl

/-- A character list without dashes is unchanged by filtering dashes out. -/
theorem filter_dash_eq_self {l : List Char} (h : ∀ c ∈ l, c ≠ '-') :
    l.filter (fun c => c ≠ '-') = l := by
  rw [List.filter_eq_self]
  intro c hc
  exact decide_eq_true (h c hc)

/-- The string of a non-negative int contains no dash. -/
theorem intToString_no_dash {n : Int} (h : 0 ≤ n) : ∀ c ∈ (intToString n).data, c ≠ '-' := by
  intro c hc
  unfold intToString at hc
  rw [if_neg (by omega : ¬ n < 0)] at hc
  simp at hc
  exact ne_of_isDigit (natDigits_all_digit _ c hc) (by decide)

/-- A member makes contains report true. -/
theorem contains_of_mem {l : List Char} {a : Char} (h : a ∈ l) : l.contains a = true := by
  induction l with
  | nil => cases h
  | cons c t ih =>
    rw [List.contains_cons]
    rcases List.mem_cons.mp h with h | h
    · rw [h]
      simp
    · rw [ih h]
      simp

/-- In the plain range (positive, at least 1e-4 and below 1e16) the float
string is the decimal form without exponent notation. -/
theorem ratRepr_plain_of_range {q : Rat} (h0 : 0 < q)
    (hlo : Rat.divInt 1 (10 ^ 4) ≤ q) (hhi : q < Rat.divInt (10 ^ 16) 1) :
    (ratRepr q).data = natDigits (q.num.natAbs / q.den) ++
      '.' :: fracDigits 17 (q.num.natAbs % q.den) q.den := by
  have hnum : 0 < q.num := Rat.num_pos.mpr h0
  have haq : Rat.divInt ((q.num.natAbs : Int)) ((q.den : Int)) = q := by
    rw [Int.natAbs_of_nonneg (le_of_lt hnum), Rat.num_divInt_den]
  have hcond : ¬ (q.num ≠ 0 ∧ (q < Rat.divInt 1 (10 ^ 4) ∨ Rat.divInt (10 ^ 16) 1 ≤ q)) := by
    rintro ⟨-, hor | hor⟩
    · exact absurd hor (not_lt.mpr hlo)
    · exact absurd hor (not_le.mpr hhi)
  unfold ratRepr
  dsimp only
  rw [haq, if_neg hcond, if_neg (not_lt.mpr (le_of_lt hnum))]
  simp only [List.nil_append]

/-- In the plain range the float string of a positive value has no dash. -/
theorem ratRepr_range_no_dash {q : Rat} (h0 : 0 < q)
    (hlo : Rat.divInt 1 (10 ^ 4) ≤ q) (hhi : q < Rat.divInt (10 ^ 16) 1) :
    (ratRepr q).data.contains '-' = false := by
  rw [ratRepr_plain_of_range h0 hlo hhi]
  apply contains_dash_false
  intro c hc
  rcases List.mem_append.mp hc with hc | hc
  · exact ne_of_isDigit (natDigits_all_digit _ c hc) (by decide)
  · rcases List.mem_cons.mp hc with hc | hc
    · rw [hc]
      decide
    · exact ne_of_isDigit
        (fracDigits_all_digit 17 _ _ q.den_pos (Nat.mod_lt _ q.den_pos) c hc) (by decide)

/-- The float string of a negative value always carries a dash (in both the
plain and the exponent-notation form the sign comes first). -/
theorem ratRepr_neg_dash {q : Rat} (hq : q < 0) : (ratRepr q).data.contains '-' = true := by
  have hnum : q.num < 0 := by
    by_contra hcon
    push_neg at hcon
    exact absurd (Rat.num_nonneg.mp hcon) (not_le.mpr hq)
  apply contains_of_mem
  unfold ratRepr
  dsimp only
  rw [if_pos hnum]
  split
  · simp
  · simp

/-- The int string of a negative value carries a dash. -/
theorem intToString_neg_dash {n : Int} (h : n < 0) :
    (intToString n).data.contains '-' = true := by
  apply contains_of_mem
  unfold intToString
  rw [if_pos h]
  simp

/-- Appending the empty string changes nothing. -/
theorem str_append_empty (s : String) : s ++ "" = s := by
  cases s with
  | mk d =>
    show String.mk (d ++ []) = String.mk d
    rw [List.append_nil]

/-- For a non-zero value the formatted mantissa is the rounded digit string
and the normalized exponent text follows the amended normalization rule. -/
theorem sciParts_spec (x : Rat) (p : Nat) (hx : x ≠ 0) :
    (sciParts x p).1 = part1String (sciDigits x p).1 p ∧
    normExp (sciParts x p).2 = normExpSpec (sciDigits x p).2 := by
  unfold sciParts
  rw [if_neg hx]
  refine ⟨rfl, ?_⟩
  show normExp (expChars (sciDigits x p).2) = _
  exact normExp_expChars _

/-- Zero formats as 0.00…e+00, whose exponent text normalizes to the single
digit zero. -/
theorem sciParts_zero_spec (p : Nat) :
    (sciParts 0 p).1 = (if p = 0 then "0" else "0." ++ String.mk (List.replicate p '0')) ∧
    normExp (sciParts 0 p).2 = normExpSpec 0 := by
  unfold sciParts
  rw [if_pos rfl]
  refine ⟨rfl, ?_⟩
  show normExp ['+', '0', '0'] = normExpSpec 0
  decide

/-- When the string form of the value has no dash and float coercion yields
a non-zero value, scientific formats it directly, with no superscript minus
prefix. -/
theorem scientific_nodash_format (v : PyVal) (p : Nat) (x : Rat)
    (hc : (pyStr v).data.contains '-' = false) (h : pyFloat v = some x) (hx : x ≠ 0) :
    scientific v p = .str (part1String (sciDigits x p).1 p ++ " x 10" ++
      String.join ((normExpSpec (sciDigits x p).2).map superGlyph)) := by
  unfold scientific
  dsimp only
  rw [hc]
  simp only [Bool.false_eq_true, if_false]
  cases v with
  | int n =>
    have hx2 : Rat.divInt n 1 = x := Option.some.inj h
    dsimp only
    rw [hx2, (sciParts_spec x p hx).1, (sciParts_spec x p hx).2, str_append_empty]
  | float q =>
    have hx2 : q = x := Option.some.inj h
    dsimp only
    rw [hx2, (sciParts_spec x p hx).1, (sciParts_spec x p hx).2, str_append_empty]
  | str s =>
    dsimp only
    rw [show parseFloatChars s.data = some x from h]
    dsimp only
    rw [(sciParts_spec x p hx).1, (sciParts_spec x p hx).2, str_append_empty]
  | none => exact absurd h (by simp [pyFloat])

/-- When the string form of the value has a dash, every dash is stripped;
if the stripped string parses to a non-zero value, scientific formats that
value and prefixes the superscript minus. -/
theorem scientific_dash_format (v : PyVal) (p : Nat) (x : Rat)
    (hc : (pyStr v).data.contains '-' = true)
    (h : parseFloatChars ((pyStr v).data.filter (fun c => c ≠ '-')) = some x) (hx : x ≠ 0) :
    scientific v p = .str (part1String (sciDigits x p).1 p ++ " x 10" ++ "⁻" ++
      String.join ((normExpSpec (sciDigits x p).2).map superGlyph)) := by
  unfold scientific
  dsimp only
  rw [hc]
  simp only [if_true]
  rw [h]
  dsimp only
  rw [(sciParts_spec x p hx).1, (sciParts_spec x p hx).2]

/-- When the string form has no dash and the value coerces to zero,
scientific prints the zero mantissa and the superscript zero exponent. -/
theorem scientific_zero_format (v : PyVal) (p : Nat)
    (hc : (pyStr v).data.contains '-' = false) (h : pyFloat v = some 0) :
    scientific v p = .str ((if p = 0 then "0" else "0." ++
      String.mk (List.replicate p '0')) ++ " x 10" ++
      String.join ((normExpSpec 0).map superGlyph)) := by
  unfold scientific
  dsimp only
  rw [hc]
  simp only [Bool.false_eq_true, if_false]
  cases v with
  | int n =>
    have hx2 : Rat.divInt n 1 = 0 := Option.some.inj h
    dsimp only
    rw [hx2, (sciParts_zero_spec p).1, (sciParts_zero_spec p).2, str_append_empty]
  | float q =>
    have hx2 : q = 0 := Option.some.inj h
    dsimp only
    rw [hx2, (sciParts_zero_spec p).1, (sciParts_zero_spec p).2, str_append_empty]
  | str s =>
    dsimp only
    rw [show parseFloatChars s.data = some 0 from h]
    dsimp only
    rw [(sciParts_zero_spec p).1, (sciParts_zero_spec p).2, str_append_empty]
  | none => exact absurd h (by simp [pyFloat])

/-- On a negative integer, scientific strips the dash from the printed
string, parses the absolute value back, and prefixes the superscript
minus. -/
theorem scientific_int_neg (n : Int) (p : Nat) (hn : n ≤ -1) :
    scientific (.int n) p = .str (part1String (sciDigits ((n.natAbs : Int) : Rat) p).1 p ++
      " x 10" ++ "⁻" ++
      String.join ((normExpSpec (sciDigits ((n.natAbs : Int) : Rat) p).2).map superGlyph)) := by
  have hdata : (intToString n).data = '-' :: natDigits n.natAbs := by
    unfold intToString
    rw [if_pos (by omega : n < 0)]
  have hcon : ('-' :: natDigits n.natAbs).contains '-' = true := by
    simp [List.contains]
  have hfilter : ('-' :: natDigits n.natAbs).filter (fun c => c ≠ '-') = natDigits n.natAbs := by
    rw [List.filter_cons_of_neg (by decide)]
    exact filter_dash_eq_self (natDigits_no_dash _)
  have hx0 : (0 : Rat) < ((n.natAbs : Int) : Rat) := by
    exact_mod_cast (by omega : (0 : Int) < (n.natAbs : Int))
  unfold scientific
  dsimp only [pyStr]
  rw [hdata, hcon]
  simp only [if_true]
  rw [hfilter]
  rw [parseFloatChars_natDigits]
  dsimp only
  rw [← Rat.intCast_eq_divInt]
  unfold sciParts
  rw [if_neg hx0.ne']
  dsimp only
  rw [normExp_expChars]

/-- C3 counterexample: at exponent ten the formatted exponent text "+10"
contains no "+0", so the plus sign survives and is rendered as a superscript
plus glyph -- the positive exponent does not render unsigned. -/
theorem scientific_keeps_plus_glyph :
    scientific (.int 10000000000) = .str "1.00 x 10⁺¹⁰" ∧
    '⁺' ∈ ("1.00 x 10⁺¹⁰").data := by
  constructor
  · decide
  · decide

/-- C3 (amended): scientific splits on whether str(value) contains a minus
sign.  Without one (non-negative integers; positive floats in the plain
string range, magnitude in [1e-4, 1e16); dash-free numeric strings) the
value formats directly and the exponent renders through the glyph table
after normalization, where the replacements remove the plus sign only from
single-digit positive exponents (longer positive exponents keep a
superscript plus) and collapse the leading zero of single-digit negative
exponents.  With one (negative integers and floats; tiny positive floats,
whose exponent-notation string carries the exponent's minus sign) every dash
is stripped, the remainder is re-parsed and formatted the same way, and a
superscript minus glyph is prefixed.  scientific(500) = "5.00 x 10²",
scientific(0.3) = "3.00 x 10⁻¹", and scientific(5.820766091346741e-11) =
"5.82 x 10⁻⁺¹¹" (the strip turns the exponent positive). -/
theorem scientific_superscript_exponent :
    (∀ (v : PyVal) (p : Nat) (x : Rat), (pyStr v).data.contains '-' = false →
      pyFloat v = some x → x ≠ 0 →
      scientific v p = .str (part1String (sciDigits x p).1 p ++ " x 10" ++
        String.join ((normExpSpec (sciDigits x p).2).map superGlyph))) ∧
    (∀ (v : PyVal) (p : Nat) (x : Rat), (pyStr v).data.contains '-' = true →
      parseFloatChars ((pyStr v).data.filter (fun c => c ≠ '-')) = some x → x ≠ 0 →
      scientific v p = .str (part1String (sciDigits x p).1 p ++ " x 10" ++ "⁻" ++
        String.join ((normExpSpec (sciDigits x p).2).map superGlyph))) ∧
    (∀ (v : PyVal) (p : Nat), (pyStr v).data.contains '-' = false → pyFloat v = some 0 →
      scientific v p = .str ((if p = 0 then "0" else "0." ++
        String.mk (List.replicate p '0')) ++ " x 10" ++
        String.join ((normExpSpec 0).map superGlyph))) ∧
    (∀ n : Int, 0 ≤ n → (pyStr (.int n)).data.contains '-' = false) ∧
    (∀ n : Int, n < 0 → (pyStr (.int n)).data.contains '-' = true) ∧
    (∀ q : Rat, 0 < q → Rat.divInt 1 (10 ^ 4) ≤ q → q < Rat.divInt (10 ^ 16) 1 →
      (pyStr (.float q)).data.contains '-' = false) ∧
    (∀ q : Rat, q < 0 → (pyStr (.float q)).data.contains '-' = true) ∧
    (∀ (n : Int) (p : Nat), n ≤ -1 →
      scientific (.int n) p = .str (part1String (sciDigits ((n.natAbs : Int) : Rat) p).1 p ++
        " x 10" ++ "⁻" ++
        String.join ((normExpSpec (sciDigits ((n.natAbs : Int) : Rat) p).2).map superGlyph))) ∧
    scientific (.int 500) = .str "5.00 x 10²" ∧
    scientific (.float (mkRat 3 10)) = .str "3.00 x 10⁻¹" ∧
    scientific (.float (Rat.divInt 5820766091346741 (10 ^ 26))) = .str "5.82 x 10⁻⁺¹¹" :=
  ⟨scientific_nodash_format, scientific_dash_format, scientific_zero_format,
   fun _ hn => contains_dash_false (intToString_no_dash hn),
   fun _ hn => intToString_neg_dash hn,
   fun _ h0 hlo hhi => ratRepr_range_no_dash h0 hlo hhi,
   fun _ hq => ratRepr_neg_dash hq,
   scientific_int_neg, by decide, by decide, by decide⟩

/-- Concrete instantiation of the no-dash part at 0.3, the dash part at
-0.3, and the negative-integer part at -2. -/
theorem scientific_superscript_exponent_witness :
    ((pyStr (PyVal.float (mkRat 3 10))).data.contains '-' = false ∧
     pyFloat (PyVal.float (mkRat 3 10)) = some (mkRat 3 10) ∧ mkRat 3 10 ≠ 0 ∧
     scientific (PyVal.float (mkRat 3 10)) 2 =
       .str (part1String (sciDigits (mkRat 3 10) 2).1 2 ++ " x 10" ++
         String.join ((normExpSpec (sciDigits (mkRat 3 10) 2).2).map superGlyph))) ∧
    ((pyStr (PyVal.float (mkRat (-3) 10))).data.contains '-' = true ∧
     parseFloatChars ((pyStr (PyVal.float (mkRat (-3) 10))).data.filter (fun c => c ≠ '-')) =
       some (mkRat 3 10) ∧
     scientific (PyVal.float (mkRat (-3) 10)) 2 =
       .str (part1String (sciDigits (mkRat 3 10) 2).1 2 ++ " x 10" ++ "⁻" ++
         String.join ((normExpSpec (sciDigits (mkRat 3 10) 2).2).map superGlyph))) ∧
    ((-2 : Int) ≤ -1 ∧
     scientific (.int (-2)) 2 =
       .str (part1String (sciDigits (((-2 : Int).natAbs : Int) : Rat) 2).1 2 ++
         " x 10" ++ "⁻" ++
         String.join ((normExpSpec (sciDigits (((-2 : Int).natAbs : Int) : Rat) 2).2).map
           superGlyph))) :=
  ⟨⟨by decide, by decide, by decide,
    scientific_superscript_exponent.1 (PyVal.float (mkRat 3 10)) 2 (mkRat 3 10)
      (by decide) (by decide) (by decide)⟩,
   ⟨by decide, by decide,
    scientific_superscript_exponent.2.1 (PyVal.float (mkRat (-3) 10)) 2 (mkRat 3 10)
      (by decide) (by decide) (by decide)⟩,
   ⟨by decide, scientific_superscript_exponent.2.2.2.2.2.2.2.1 (-2) 2 (by decide)⟩⟩

/-- C1 counterexample: a dash-carrying unparsable string is mutated before
the failure is detected, so scientific returns the dash-stripped string
"abc", not the original input "-abc". -/
theorem scientific_mutates_dashed_string :
    scientific (.str "-abc") = .str "abc" ∧
    ((("abc" : String) == "-abc") = false) := by
  constructor
  · decide
  · decide

/-- C1 (amended): ordinal, intword, apnumber, intcomma and fractional return
the input unchanged whenever their coercion fails, and so does scientific
when the string form of the input carries no minus sign; when it does carry
one and the stripped string still fails to parse, scientific returns the
dash-stripped string instead of the original input. -/
theorem pass_through_on_failure :
    (∀ v : PyVal, pyInt v = Option.none → ordinal v = v) ∧
    (∀ v : PyVal, pyInt v = Option.none → intword v = v) ∧
    (∀ v : PyVal, pyInt v = Option.none → apnumber v = v) ∧
    (∀ v : PyVal, intcommaValid v = false → intcomma v = v) ∧
    (∀ v : PyVal, pyFloat v = Option.none → fractional v = v) ∧
    (∀ (v : PyVal) (p : Nat), (pyStr v).data.contains '-' = false →
      pyFloat v = Option.none → scientific v p = v) ∧
    (∀ (s : String) (p : Nat), s.data.contains '-' = true →
      parseFloatChars (s.data.filter (fun c => c ≠ '-')) = Option.none →
      scientific (.str s) p = .str (String.mk (s.data.filter (fun c => c ≠ '-')))) := by
  refine ⟨?_, ?_, ?_, ?_, ?_, ?_, ?_⟩
  · intro v h
    unfold ordinal
    rw [h]
  · intro v h
    unfold intword
    rw [h]
  · intro v h
    unfold apnumber
    rw [h]
  · intro v h
    unfold intcomma
    rw [h]
    simp
  · intro v h
    unfold fractional
    rw [h]
  · intro v p hc h
    cases v with
    | int n => exact absurd h (by simp [pyFloat])
    | float q => exact absurd h (by simp [pyFloat])
    | str s =>
      unfold scientific
      dsimp only [pyStr]
      rw [show s.data.contains '-' = false from hc]
      simp only [Bool.false_eq_true, if_false]
      rw [show parseFloatChars s.data = Option.none from h]
    | none =>
      unfold scientific
      dsimp only [pyStr]
      rw [show ("None" : String).data.contains '-' = false from rfl]
      simp only [Bool.false_eq_true, if_false]
  · intro s p hc h
    unfold scientific
    dsimp only [pyStr]
    rw [hc]
    simp only [if_true]
    rw [h]

/-- Concrete instantiations of the pass-through statement: an unparsable
plain string for ordinal and scientific, and the dashed unparsable string
for the scientific divergence. -/
theorem pass_through_on_failure_witness :
    (pyInt (PyVal.str "x") = Option.none ∧ ordinal (PyVal.str "x") = PyVal.str "x") ∧
    ((pyStr (PyVal.str "x")).data.contains '-' = false ∧
     pyFloat (PyVal.str "x") = Option.none ∧
     scientific (PyVal.str "x") 2 = PyVal.str "x") ∧
    (("-abc" : String).data.contains '-' = true ∧
     parseFloatChars (("-abc" : String).data.filter (fun c => c ≠ '-')) = Option.none ∧
     scientific (PyVal.str "-abc") 2 =
       PyVal.str (String.mk (("-abc" : String).data.filter (fun c => c ≠ '-')))) :=
  ⟨⟨by decide, pass_through_on_failure.1 (PyVal.str "x") (by decide)⟩,
   ⟨by decide, by decide,
    pass_through_on_failure.2.2.2.2.2.1 (PyVal.str "x") 2 (by decide) (by decide)⟩,
   ⟨by decide, by decide,
    pass_through_on_failure.2.2.2.2.2.2 "-abc" 2 (by decide) (by decide)⟩⟩

/-- Concrete instantiation of the grouping statement at 3000. -/
theorem intcomma_groups_left_of_point_witness :
    intcommaValid (PyVal.int 3000) = true ∧
    intcomma (PyVal.int 3000) = .str (String.mk ((decomposeNum (pyStr (PyVal.int 3000)).data).1 ++
      groupFromRight (decomposeNum (pyStr (PyVal.int 3000)).data).2.1 ++
      (decomposeNum (pyStr (PyVal.int 3000)).data).2.2)) :=
  ⟨by decide, intcomma_groups_left_of_point.1 (PyVal.int 3000) (by decide)⟩

/-- Concrete instantiation of the promotion statement at 999999999999, whose
one-decimal mantissa over the billion threshold rounds to exactly 1000.0 and
which therefore prints as "1.0 trillion". -/
theorem intword_promotes_on_round_1000_witness :
    (((10 : Int) ^ 9, "billion"), ((10 : Int) ^ 12, "trillion")) ∈ intwordPairs ∧
    (10 : Int) ^ 9 ≤ 999999999999 ∧
    (999999999999 : Int) < 10 ^ 12 ∧
    roundHalfEven (ratMulPow10 (Rat.divInt 999999999999 (10 ^ 9)) 1) = 1000 * 10 ^ 1 ∧
    intword (.int 999999999999) =
      .str (String.mk (formatFixed 1 (Rat.divInt 999999999999 (10 ^ 12))) ++ " " ++ "trillion") ∧
    (999999999999 : Int) < 10 ^ 36 ∧
    (intword (.int 999999999999) = .str (intToString 999999999999) ∨
     ∃ m w, intword (.int 999999999999) = .str (String.mk (formatFixed 1 m) ++ " " ++ w) ∧
       roundHalfEven (ratMulPow10 m 1) < 10000) :=
  ⟨by decide, by decide, by decide, by decide,
   intword_promotes_on_round_1000.1 999999999999 (10 ^ 9) (10 ^ 12) "billion" "trillion"
     (by decide) (by decide) (by decide) (by decide),
   by decide,
   intword_promotes_on_round_1000.2 999999999999 (by decide)⟩

/-- Concrete instantiation of the out-of-range statement at 5 and at the
googol itself. -/
theorem intword_plain_out_of_range_witness :
    ((5 : Int) < 10 ^ 6 ∧ intword (.int 5) = .str (intToString 5)) ∧
    ((10 : Int) ^ 100 ≤ 10 ^ 100 ∧ intword (.int (10 ^ 100)) = .str (intToString (10 ^ 100))) :=
  ⟨⟨by decide, intword_plain_out_of_range.1 5 (by decide)⟩,
   ⟨by decide, intword_plain_out_of_range.2.1 (10 ^ 100) (by decide)⟩⟩

end Humanize
